import Mathlib

/-!
Verification development for the Referee comparison tool.

The definitions below are a shallow embedding of the TypeScript sources:
  * `extractJson`, `validateOption`, `validateTradeOff`, `normalizeGrokResponse`
    from the response normalizer (src/unnamed/part_001);
  * `callGrokWithRetry` from the Groq client (src/unnamed/part_002), modelled
    over an oracle giving the outcome of each attempt;
  * `buildComparisonPrompt` from src/backend/src/utils/promptBuilder.ts;
  * `executeComparison` from src/backend/src/services/comparisonService.ts,
    with the database and the AI endpoint modelled as explicit collaborators.

JSON values are modelled by the mutual inductive `Json`; `parseJson` is an
executable model of `JSON.parse` restricted to integer numeric literals and to
the escape sequences backslash-quote, backslash-backslash, slash, n, t, r, b, f
(no unicode escapes); it accepts raw control characters inside strings.  These
restrictions only affect inputs that no claim, witness or counterexample uses.
-/

/-- The backtick character (ASCII 96), kept out of literals on purpose. -/
def tickChar : Char := Char.ofNat 96

/-- JavaScript whitespace as used by `String.prototype.trim` and the regex
class backslash-s, restricted to the ASCII range plus NBSP. -/
def isJsWsChar (c : Char) : Bool :=
  c = ' ' || c = '\t' || c = '\n' || c = '\r' || c = '\x0b' || c = '\x0c' ||
  c = Char.ofNat 160

/-- Drop trailing JS whitespace. -/
def dropTrailWs : List Char → List Char
  | [] => []
  | c :: t =>
    match dropTrailWs t with
    | [] => if isJsWsChar c then [] else [c]
    | r => c :: r

/-- JS `String.prototype.trim` on a character list. -/
def jsTrimL (l : List Char) : List Char :=
  dropTrailWs (l.dropWhile isJsWsChar)

/-- JS `String.prototype.trim`. -/
def jsTrim (s : String) : String := ⟨jsTrimL s.data⟩

/-- `pfx p l` holds when `p` is a prefix of `l` (boolean matcher used by the
substring scans below). -/
def pfx : List Char → List Char → Bool
  | [], _ => true
  | _ :: _, [] => false
  | a :: p, b :: l => a = b && pfx p l

/-- `subL p l`: `p` occurs as a contiguous substring of `l`. -/
def subL (p : List Char) : List Char → Bool
  | [] => pfx p []
  | c :: t => pfx p (c :: t) || subL p t

/-- Number of occurrences (counted at every start position) of `p` in `l`. -/
def countOcc (p : List Char) : List Char → Nat
  | [] => if pfx p [] then 1 else 0
  | c :: t => (if pfx p (c :: t) then 1 else 0) + countOcc p t

/-- `SubStr p s`: the string `p` occurs textually inside `s`. -/
def SubStr (p s : String) : Prop :=
  ∃ l r, s.data = l ++ p.data ++ r

/-! ## JSON values (result of `JSON.parse`) -/

mutual
/-- A parsed JSON value.  Numbers are restricted to integers. -/
inductive Json where
  | null : Json
  | bool (b : Bool) : Json
  | num (n : Int) : Json
  | str (s : String) : Json
  | arr (xs : JsonList) : Json
  | obj (fs : JsonFields) : Json

/-- A list of JSON values (array elements). -/
inductive JsonList where
  | nil : JsonList
  | cons (hd : Json) (tl : JsonList) : JsonList

/-- JSON object fields in insertion order (unique keys after parsing). -/
inductive JsonFields where
  | nil : JsonFields
  | cons (k : String) (v : Json) (tl : JsonFields) : JsonFields
end

/-- Is the JSON array empty? -/
def JsonList.isNil : JsonList → Bool
  | .nil => true
  | .cons _ _ => false

/-- Does some element satisfy `p`? -/
def JsonList.any (p : Json → Bool) : JsonList → Bool
  | .nil => false
  | .cons x t => p x || JsonList.any p t

/-- Does every element satisfy `p`? -/
def JsonList.all (p : Json → Bool) : JsonList → Bool
  | .nil => true
  | .cons x t => p x && JsonList.all p t

/-- First value stored under `key` (fields are unique after parsing). -/
def fieldsGet : JsonFields → String → Option Json
  | .nil, _ => none
  | .cons k v t, key => if k = key then some v else fieldsGet t key

/-- Is `key` present? -/
def fieldsHas : JsonFields → String → Bool
  | .nil, _ => false
  | .cons k _ t, key => k = key || fieldsHas t key

/-- Replace the value stored under `key`, keeping its position. -/
def fieldsReplace : JsonFields → String → Json → JsonFields
  | .nil, _, _ => .nil
  | .cons k0 v0 t, key, v =>
    if k0 = key then .cons k0 v t else .cons k0 v0 (fieldsReplace t key v)

/-- Append a binding at the end. -/
def fieldsAppend : JsonFields → String → Json → JsonFields
  | .nil, k, v => .cons k v .nil
  | .cons a b t, k, v => .cons a b (fieldsAppend t k v)

/-- JS property write used by `JSON.parse`: overwrite in place when the key
exists, append otherwise. -/
def insertField (fs : JsonFields) (k : String) (v : Json) : JsonFields :=
  if fieldsHas fs k then fieldsReplace fs k v else fieldsAppend fs k v

/-- JS property read (`value.key`) for the property names the normalizer
uses; arrays and primitives yield `undefined`, modelled as `none`. -/
def jsGet : Json → String → Option Json
  | .obj fs, key => fieldsGet fs key
  | _, _ => none

/-- Field list of an object. -/
def fieldsList : JsonFields → List (String × Json)
  | .nil => []
  | .cons k v t => (k, v) :: fieldsList t

/-- Index/value pairs of an array, as `Object.entries` sees them. -/
def arrEntries (i : Nat) : JsonList → List (String × Json)
  | .nil => []
  | .cons x t => (toString i, x) :: arrEntries (i + 1) t

/-- `Object.entries` on a parsed value. -/
def jsEntries : Json → List (String × Json)
  | .obj fs => fieldsList fs
  | .arr xs => arrEntries 0 xs
  | _ => []

/-- `v && typeof v === "object"`: a truthy value of object type. -/
def truthyObject : Json → Bool
  | .arr _ => true
  | .obj _ => true
  | _ => false

mutual
/-- JS `String(value)` on a parsed JSON value. -/
def jsStringify : Json → String
  | .null => "null"
  | .bool true => "true"
  | .bool false => "false"
  | .num n => toString n
  | .str s => s
  | .arr xs => joinElems xs
  | .obj _ => "[object Object]"

/-- `Array.prototype.join(",")` as used by `String` on arrays: `null`
elements become the empty string. -/
def joinElems : JsonList → String
  | .nil => ""
  | .cons .null .nil => ""
  | .cons x .nil => jsStringify x
  | .cons .null t => "," ++ joinElems t
  | .cons x t => jsStringify x ++ "," ++ joinElems t
end

/-! ## An executable model of `JSON.parse` -/

/-- JSON grammar whitespace. -/
def isJsonWs (c : Char) : Bool :=
  c = ' ' || c = '\t' || c = '\n' || c = '\r'

/-- Skip JSON whitespace. -/
def skipWs (l : List Char) : List Char := l.dropWhile isJsonWs

/-- Decimal digit? -/
def isDigitCh (c : Char) : Bool := '0' ≤ c && c ≤ '9'

/-- Value of a digit list (most significant first). -/
def digitsVal : List Char → Nat → Nat
  | [], acc => acc
  | c :: t, acc => digitsVal t (acc * 10 + (c.toNat - 48))

/-- Decode a single string escape character. -/
def unescape (c : Char) : Option Char :=
  if c = '"' then some '"'
  else if c = '\\' then some '\\'
  else if c = '/' then some '/'
  else if c = 'n' then some '\n'
  else if c = 't' then some '\t'
  else if c = 'r' then some '\r'
  else if c = 'b' then some '\x08'
  else if c = 'f' then some '\x0c'
  else none

/-- Parse the body of a JSON string after the opening quote; returns the
decoded characters and the input after the closing quote. -/
def parseStrBody : List Char → Option (List Char × List Char)
  | [] => none
  | c :: r =>
    if c = '"' then some ([], r)
    else if c = '\\' then
      match r with
      | [] => none
      | e :: r2 =>
        match unescape e with
        | none => none
        | some d => (parseStrBody r2).map (fun p => (d :: p.1, p.2))
    else (parseStrBody r).map (fun p => (c :: p.1, p.2))

/-- Parse an integer numeric literal starting with character `c`. -/
def parseNumFrom (c : Char) (r : List Char) : Option (Json × List Char) :=
  if c = '-' then
    match r with
    | [] => none
    | d :: _ =>
      if isDigitCh d then
        some (.num (-(digitsVal (r.takeWhile isDigitCh) 0 : Int)), r.dropWhile isDigitCh)
      else none
  else
    some (.num (digitsVal ((c :: r).takeWhile isDigitCh) 0), (c :: r).dropWhile isDigitCh)

mutual
/-- Parse one JSON value (fueled recursion; the fuel picked by `parseJson`
is always sufficient). -/
def parseVal : Nat → List Char → Option (Json × List Char)
  | 0, _ => none
  | fuel + 1, l =>
    match skipWs l with
    | [] => none
    | c :: r =>
      if c = '"' then
        match parseStrBody r with
        | none => none
        | some (cs, r2) => some (.str ⟨cs⟩, r2)
      else if c = '[' then
        let r1 := skipWs r
        if r1.head? = some ']' then some (.arr .nil, r1.tail)
        else
          match parseItems fuel r1 with
          | none => none
          | some (xs, r2) => some (.arr xs, r2)
      else if c = '{' then
        let r1 := skipWs r
        if r1.head? = some '}' then some (.obj .nil, r1.tail)
        else
          match parseMembers fuel .nil r1 with
          | none => none
          | some (fs, r2) => some (.obj fs, r2)
      else if c = 'n' then
        if pfx ['u', 'l', 'l'] r then some (.null, r.drop 3) else none
      else if c = 't' then
        if pfx ['r', 'u', 'e'] r then some (.bool true, r.drop 3) else none
      else if c = 'f' then
        if pfx ['a', 'l', 's', 'e'] r then some (.bool false, r.drop 4) else none
      else if c = '-' || isDigitCh c then parseNumFrom c r
      else none

/-- Parse the non-empty element list of an array, consuming the closing
bracket. -/
def parseItems : Nat → List Char → Option (JsonList × List Char)
  | 0, _ => none
  | fuel + 1, l =>
    match parseVal fuel l with
    | none => none
    | some (v, r) =>
      match skipWs r with
      | [] => none
      | d :: r2 =>
        if d = ',' then
          match parseItems fuel r2 with
          | none => none
          | some (xs, r3) => some (.cons v xs, r3)
        else if d = ']' then some (.cons v .nil, r2)
        else none

/-- Parse the non-empty member list of an object, consuming the closing
brace; duplicate keys overwrite in place as in JS. -/
def parseMembers : Nat → JsonFields → List Char → Option (JsonFields × List Char)
  | 0, _, _ => none
  | fuel + 1, acc, l =>
    match skipWs l with
    | [] => none
    | c :: r =>
      if c = '"' then
        match parseStrBody r with
        | none => none
        | some (kcs, r2) =>
          match skipWs r2 with
          | [] => none
          | d :: r3 =>
            if d = ':' then
              match parseVal fuel r3 with
              | none => none
              | some (v, r4) =>
                let acc2 := insertField acc ⟨kcs⟩ v
                match skipWs r4 with
                | [] => none
                | e :: r5 =>
                  if e = ',' then parseMembers fuel acc2 r5
                  else if e = '}' then some (acc2, r5)
                  else none
            else none
      else none
end

/-- `JSON.parse` (integer numbers, no unicode escapes): parse one value and
require only whitespace to remain. -/
def parseJson (s : String) : Option Json :=
  match parseVal (2 * s.data.length + 2) s.data with
  | some (v, r) => if (skipWs r).isEmpty then some v else none
  | none => none

/-! ## Extraction (the two regex scans of `extractJson`) -/

/-- Three backticks, the fence delimiter. -/
def tickL : List Char := [tickChar, tickChar, tickChar]

/-- The four characters of the optional `json` tag after the opening fence. -/
def jsonTagL : List Char := ['j', 's', 'o', 'n']

/-- Characters before the first closing fence, if one occurs. -/
def findClose : List Char → Option (List Char)
  | [] => none
  | c :: t =>
    if pfx tickL (c :: t) then some []
    else (findClose t).map (fun g => c :: g)

/-- Leftmost match of the fenced-block regex: at the first opening fence,
consume an optional literal `json` tag, then greedy whitespace, then the
lazily matched group up to the first closing fence; if no closing fence
exists the scan advances one character (no closing fence can hide inside the
tag or the whitespace, so this matches the regex backtracking). -/
def fenceFrom : List Char → Option (List Char)
  | [] => none
  | c :: t =>
    if pfx tickL (c :: t) then
      let body := (c :: t).drop 3
      let body2 := if pfx jsonTagL body then body.drop 4 else body
      match findClose (body2.dropWhile isJsWsChar) with
      | some g => some g
      | none => fenceFrom t
    else fenceFrom t

/-- Prefix of the input ending at its last closing brace, if any. -/
def takeToLastRBrace : List Char → Option (List Char)
  | [] => none
  | c :: t =>
    match takeToLastRBrace t with
    | some g => some (c :: g)
    | none => if c = '}' then some [c] else none

/-- Leftmost match of the greedy brace-span regex: from the first opening
brace to the last closing brace after it. -/
def braceSpan : List Char → Option (List Char)
  | [] => none
  | c :: t =>
    if c = '{' then (takeToLastRBrace t).map (fun g => c :: g)
    else braceSpan t

/-- `extractJson` from the response normalizer: fenced block interior
(trimmed), else first brace span, else the trimmed whole string. -/
def extractJson (raw : String) : String :=
  match fenceFrom raw.data with
  | some g => ⟨jsTrimL g⟩
  | none =>
    match braceSpan raw.data with
    | some sp => ⟨sp⟩
    | none => ⟨jsTrimL raw.data⟩

/-! ## The response normalizer -/

/-- Analysis of one option, as produced by the normalizer. -/
structure OptionAnalysis where
  name : String
  pros : List String
  cons : List String
  scores : List (String × String)
deriving DecidableEq, Repr

/-- One trade-off entry. -/
structure TradeOff where
  scenario : String
  recommendation : String
deriving DecidableEq, Repr

/-- The normalizer result shape. -/
structure NormalizedComparisonResult where
  options : List OptionAnalysis
  tradeOffs : List TradeOff
deriving DecidableEq, Repr

/-- `opt.pros.filter(p => typeof p === "string" && p.trim() !== "")`: keep
string elements that are non-blank after trimming, verbatim. -/
def strFilter : JsonList → List String
  | .nil => []
  | .cons (.str s) t =>
    if jsTrimL s.data = [] then strFilter t else s :: strFilter t
  | .cons _ t => strFilter t

/-- One step of the `scores` reduce: strings verbatim, `null` dropped,
anything else stringified. -/
def scoresStep (acc : List (String × String)) (kv : String × Json) :
    List (String × String) :=
  match kv.2 with
  | .str s => acc ++ [(kv.1, s)]
  | .null => acc
  | v => acc ++ [(kv.1, jsStringify v)]

/-- The `scores` handling of `validateOption`: a truthy object (including an
array) is copied entry by entry, anything else yields the empty mapping. -/
def scoresOf (o : Json) : List (String × String) :=
  match jsGet o "scores" with
  | some v => if truthyObject v then (jsEntries v).foldl scoresStep [] else []
  | none => []

/-- `validateOption` from the response normalizer (errors are
`NormalizationError` messages). -/
def validateOption (o : Json) (index : Nat) : Except String OptionAnalysis :=
  if !truthyObject o then
    .error ("Option at index " ++ toString index ++ " is not a valid object")
  else
    match jsGet o "name" with
    | some (.str s) =>
      if jsTrimL s.data = [] then
        .error ("Option at index " ++ toString index ++
          " is missing a valid \x27name\x27 field")
      else
        match jsGet o "pros" with
        | some (.arr ps) =>
          match jsGet o "cons" with
          | some (.arr cs) =>
            .ok ⟨jsTrim s, strFilter ps, strFilter cs, scoresOf o⟩
          | _ => .error ("Option \x27" ++ s ++ "\x27 is missing \x27cons\x27 array")
        | _ => .error ("Option \x27" ++ s ++ "\x27 is missing \x27pros\x27 array")
    | _ =>
      .error ("Option at index " ++ toString index ++
        " is missing a valid \x27name\x27 field")

/-- `response.options.map(validateOption)`: the first invalid entry fails
the whole normalization. -/
def validateOptions (i : Nat) : JsonList → Except String (List OptionAnalysis)
  | .nil => .ok []
  | .cons o t =>
    match validateOption o i with
    | .error e => .error e
    | .ok a =>
      match validateOptions (i + 1) t with
      | .error e => .error e
      | .ok rest => .ok (a :: rest)

/-- `validateTradeOff` from the response normalizer: invalid entries yield
`none` (they are skipped with a console warning). -/
def validateTradeOff (t : Json) : Option TradeOff :=
  if !truthyObject t then none
  else
    match jsGet t "scenario" with
    | some (.str sc) =>
      if jsTrimL sc.data = [] then none
      else
        match jsGet t "recommendation" with
        | some (.str rcm) =>
          if jsTrimL rcm.data = [] then none
          else some ⟨jsTrim sc, jsTrim rcm⟩
        | _ => none
    | _ => none

/-- Map-then-filter over the `tradeOffs` array. -/
def collectTradeOffs : JsonList → List TradeOff
  | .nil => []
  | .cons t rest =>
    match validateTradeOff t with
    | some x => x :: collectTradeOffs rest
    | none => collectTradeOffs rest

/-- `normalizeGrokResponse`: the full normalization pipeline.  The parse
error detail interpolated by the source is omitted from the message. -/
def normalizeGrokResponse (raw : String) : Except String NormalizedComparisonResult :=
  if raw = "" then .error "Response is empty or not a string"
  else
    match parseJson (extractJson raw) with
    | none => .error "Failed to parse JSON response"
    | some parsed =>
      if !truthyObject parsed then .error "Parsed response is not a valid object"
      else
        match jsGet parsed "options" with
        | some (.arr xs) =>
          if xs.isNil then .error "Response \"options\" array is empty"
          else
            match validateOptions 0 xs with
            | .error e => .error e
            | .ok opts =>
              let tos :=
                match jsGet parsed "tradeOffs" with
                | some (.arr ts) => collectTradeOffs ts
                | _ => []
              .ok ⟨opts, tos⟩
        | _ => .error "Response is missing required \"options\" array"

/-! ## The Groq completion client (`callGrokWithRetry`) -/

/-- Default retry bound (`MAX_RETRIES`). -/
def MAX_RETRIES : Nat := 3

/-- Default backoff base in milliseconds (`BASE_DELAY_MS`). -/
def BASE_DELAY_MS : Nat := 1000

/-- The parsed success payload: either the `choices[0].message` chain is
broken, or a message exists with an optional `content` string. -/
inductive GrokPayload where
  | invalid : GrokPayload
  | content (c : Option String) : GrokPayload
deriving DecidableEq

/-- Outcome of one attempt against the completion endpoint. -/
inductive AttemptOutcome where
  | http (status : Nat) (body : String) : AttemptOutcome
  | network (msg : String) : AttemptOutcome
  | ok (payload : GrokPayload) : AttemptOutcome
deriving DecidableEq

/-- `GrokApiError` as built by `createGrokError`. -/
structure GrokApiError where
  message : String
  statusCode : Option Nat
  isRetryable : Bool
deriving DecidableEq

/-- `createGrokError`: retryable exactly on 429 or a 5xx-and-above status. -/
def createGrokError (msg : String) (statusCode : Option Nat) : GrokApiError :=
  ⟨msg, statusCode,
    match statusCode with
    | some st => st = 429 || 500 ≤ st
    | none => false⟩

/-- The HTTP-status error thrown for a non-ok response. -/
def httpError (st : Nat) (body : String) : GrokApiError :=
  createGrokError ("Groq API error: " ++ toString st ++ " - " ++ body) (some st)

/-- The malformed-success error (`Invalid response structure from Groq API`). -/
def invalidStructureError : GrokApiError :=
  createGrokError "Invalid response structure from Groq API" none

/-- Observable result of a `callGrokWithRetry` run: final outcome, number of
attempts issued, and the backoff waits performed (in milliseconds, in
order). -/
structure GrokRun where
  result : Except GrokApiError String
  attempts : Nat
  waits : List Nat

/-- Backoff delay after a failed attempt: `BASE_DELAY_MS * 2 ^ (attempt-1)`. -/
def delayMs (attempt : Nat) : Nat := BASE_DELAY_MS * 2 ^ (attempt - 1)

/-- Prepend one wait and one attempt to a run. -/
def GrokRun.after (w : Nat) (r : GrokRun) : GrokRun :=
  ⟨r.result, r.attempts + 1, w :: r.waits⟩

/-- The retry loop of `callGrokWithRetry`.  `fuel` counts the remaining loop
iterations (`maxRetries - attempt + 1` at every call), so `fuel = 0` is the
unreachable loop exit and the `attempt = maxRetries` tests mirror the
source.  Outcomes per attempt are given by the oracle `f`. -/
def grokGo (f : Nat → AttemptOutcome) (maxRetries : Nat) :
    Nat → Nat → GrokRun
  | _, 0 => ⟨.error (createGrokError "Unexpected error in retry logic" none), 0, []⟩
  | attempt, fuel + 1 =>
    match f attempt with
    | .ok .invalid => ⟨.error invalidStructureError, 1, []⟩
    | .ok (.content c) => ⟨.ok (c.getD ""), 1, []⟩
    | .http st body =>
      let e := httpError st body
      if !e.isRetryable || attempt = maxRetries then ⟨.error e, 1, []⟩
      else (grokGo f maxRetries (attempt + 1) fuel).after (delayMs attempt)
    | .network msg =>
      if attempt = maxRetries then
        ⟨.error (createGrokError
          ("Groq API request failed after " ++ toString maxRetries ++
            " attempts: " ++ msg) none), 1, []⟩
      else (grokGo f maxRetries (attempt + 1) fuel).after (delayMs attempt)

/-- `callGrokWithRetry` over an attempt oracle. -/
def callGrokWithRetry (f : Nat → AttemptOutcome) (maxRetries : Nat := MAX_RETRIES) :
    GrokRun :=
  grokGo f maxRetries 1 maxRetries

/-- A retryable outcome: network-level failure, or HTTP status 429 or at
least 500. -/
def retryableOutcome : AttemptOutcome → Bool
  | .http st _ => st = 429 || 500 ≤ st
  | .network _ => true
  | .ok _ => false

/-! ## The prompt builder -/

/-- `map((x, i) => (i+1) + ". " + x)` starting at ordinal `n`. -/
def numItems (n : Nat) : List String → List String
  | [] => []
  | x :: t => (toString n ++ ". " ++ x) :: numItems (n + 1) t

/-- `Array.prototype.join("\n")`. -/
def joinNL : List String → String
  | [] => ""
  | [a] => a
  | a :: t => a ++ "\n" ++ joinNL t

/-- The literal no-winner instruction of the prompt. -/
def noWinnerInstr : String :=
  "DO NOT declare a \"best\" or \"winner\" - remain completely neutral"

/-- Template text before the enumerated options. -/
def promptIntro : String :=
  "You are a neutral technical referee. Compare the following options without declaring a winner.\n\nOPTIONS TO COMPARE:\n"

/-- Template text between the options and the constraints. -/
def promptMid : String := "\n\nCONSTRAINTS TO EVALUATE:\n"

/-- Template text after the enumerated constraints. -/
def promptRest : String :=
  "\n\nINSTRUCTIONS:\n1. Analyze each option against ALL constraints\n2. List specific pros and cons for each option\n3. " ++
  noWinnerInstr ++
  "\n4. Provide trade-off scenarios: \"If you prioritize X, consider Y because...\"\n5. Be factual and balanced in your analysis\n6. Score each option against each constraint with a brief explanation\n\nOUTPUT FORMAT (respond with valid JSON only, no markdown code blocks):\n\x7b\n  \"options\": [\n    \x7b\n      \"name\": \"option name\",\n      \"pros\": [\"pro 1\", \"pro 2\"],\n      \"cons\": [\"con 1\", \"con 2\"],\n      \"scores\": \x7b\n        \"constraint1\": \"rating/explanation\",\n        \"constraint2\": \"rating/explanation\"\n      \x7d\n    \x7d\n  ],\n  \"tradeOffs\": [\n    \x7b\n      \"scenario\": \"When you need...\",\n      \"recommendation\": \"Consider X because...\"\n    \x7d\n  ]\n\x7d\n\nIMPORTANT: \n- Return ONLY valid JSON, no additional text or markdown formatting\n- Include ALL options provided in your analysis\n- Include scores for ALL constraints for each option\n- Trade-offs should present balanced scenarios, not recommendations for a single option"

/-- `buildComparisonPrompt` from the prompt builder. -/
def buildComparisonPrompt (options constraints : List String) : String :=
  promptIntro ++ joinNL (numItems 1 options) ++ promptMid ++
    joinNL (numItems 1 constraints) ++ promptRest

/-! ## The orchestrator (`executeComparison`) -/

/-- Validated comparison input. -/
structure ComparisonInput where
  options : List String
  constraints : List String
deriving DecidableEq

/-- `ComparisonServiceError` (message, machine code, transport status). -/
structure ComparisonServiceError where
  message : String
  code : String
  statusCode : Nat
deriving DecidableEq

/-- The service response on success. -/
structure ComparisonResponse where
  id : String
  options : List OptionAnalysis
  tradeOffs : List TradeOff
  createdAt : String
deriving DecidableEq

/-- The persistence store visible to the orchestrator. -/
structure Db where
  requests : List (String × ComparisonInput)
  results : List (String × NormalizedComparisonResult)
deriving DecidableEq

/-- One request's environment: collaborator behaviors and ambient data. -/
structure OrchestratorEnv where
  requestFails : Bool
  newId : String
  grok : Except String String
  resultFails : Bool
  now : String

/-- The user-safe message used when normalization fails. -/
def normalizationFailureMsg : String :=
  "Failed to process AI response. Please try again."

/-- `executeComparison`: store the request, build the prompt, call the
client, normalize, store the result; every failure becomes a typed
`ComparisonServiceError` and the store is threaded explicitly. -/
def executeComparison (env : OrchestratorEnv) (db : Db) (input : ComparisonInput) :
    Except ComparisonServiceError ComparisonResponse × Db :=
  if env.requestFails then
    (.error ⟨"Failed to store comparison request", "database_error", 500⟩, db)
  else
    let db1 : Db := ⟨db.requests ++ [(env.newId, input)], db.results⟩
    let _prompt := buildComparisonPrompt input.options input.constraints
    match env.grok with
    | .error m =>
      (.error ⟨"AI service is currently unavailable: " ++ m,
        "ai_service_error", 502⟩, db1)
    | .ok raw =>
      match normalizeGrokResponse raw with
      | .error _ =>
        (.error ⟨normalizationFailureMsg, "normalization_error", 502⟩, db1)
      | .ok res =>
        if env.resultFails then
          (.error ⟨"Failed to store comparison result", "database_error", 500⟩, db1)
        else
          (.ok ⟨env.newId, res.options, res.tradeOffs, env.now⟩,
            ⟨db1.requests, db1.results ++ [(env.newId, res)]⟩)

/-! ## Serialization to the documented schema, and well-formedness -/

/-- JSON string escaping for the serializer: quote and backslash. -/
def escapeL : List Char → List Char
  | [] => []
  | c :: t => (if c = '"' || c = '\\' then ['\\', c] else [c]) ++ escapeL t

/-- Serialize one string literal. -/
def serStrL (cs : List Char) : List Char := '"' :: (escapeL cs ++ ['"'])

mutual
/-- Serialize a JSON value (no whitespace). -/
def serJson : Json → List Char
  | .null => "null".data
  | .bool b => (cond b "true" "false").data
  | .num n => (toString n).data
  | .str s => serStrL s.data
  | .arr xs => '[' :: (serItemsL xs ++ [']'])
  | .obj fs => '{' :: (serMembersL fs ++ ['}'])

/-- Serialize array elements, comma separated. -/
def serItemsL : JsonList → List Char
  | .nil => []
  | .cons x .nil => serJson x
  | .cons x t => serJson x ++ ',' :: serItemsL t

/-- Serialize object members, comma separated. -/
def serMembersL : JsonFields → List Char
  | .nil => []
  | .cons k v .nil => serStrL k.data ++ ':' :: serJson v
  | .cons k v t => serStrL k.data ++ ':' :: serJson v ++ ',' :: serMembersL t
end

/-- Strings as a JSON array. -/
def strJsonList : List String → JsonList
  | [] => .nil
  | s :: t => .cons (.str s) (strJsonList t)

/-- A score mapping as JSON object fields. -/
def scoreFields : List (String × String) → JsonFields
  | [] => .nil
  | (k, v) :: t => .cons k (.str v) (scoreFields t)

/-- One option under the documented schema. -/
def optionToJson (o : OptionAnalysis) : Json :=
  .obj (.cons "name" (.str o.name)
    (.cons "pros" (.arr (strJsonList o.pros))
      (.cons "cons" (.arr (strJsonList o.cons))
        (.cons "scores" (.obj (scoreFields o.scores)) .nil))))

/-- One trade-off under the documented schema. -/
def tradeOffToJson (t : TradeOff) : Json :=
  .obj (.cons "scenario" (.str t.scenario)
    (.cons "recommendation" (.str t.recommendation) .nil))

/-- Options as a JSON array. -/
def optionsToJson : List OptionAnalysis → JsonList
  | [] => .nil
  | o :: t => .cons (optionToJson o) (optionsToJson t)

/-- Trade-offs as a JSON array. -/
def tradeOffsToJson : List TradeOff → JsonList
  | [] => .nil
  | x :: t => .cons (tradeOffToJson x) (tradeOffsToJson t)

/-- Modelled from the spec: a normalized result under the documented JSON
schema (an object with `options[]` and `tradeOffs[]`); the repository itself
serializes results only via `JSON.stringify` for storage, so the schema
layout here follows the spec text. -/
def resultToJson (r : NormalizedComparisonResult) : Json :=
  .obj (.cons "options" (.arr (optionsToJson r.options))
    (.cons "tradeOffs" (.arr (tradeOffsToJson r.tradeOffs)) .nil))

/-- Modelled from the spec: serializing a well-formed result to the
documented JSON schema text. -/
def serializeResult (r : NormalizedComparisonResult) : String :=
  ⟨serJson (resultToJson r)⟩

/-- Is `s` trimmed and non-empty? -/
def trimmedNonEmptyB (s : String) : Bool :=
  (jsTrimL s.data = s.data : Bool) && !s.data.isEmpty

/-- Pairwise-distinct score keys (a `Record` cannot repeat keys). -/
def nodupKeysB : List (String × String) → Bool
  | [] => true
  | (k, _) :: t => !(t.any (fun kv => kv.1 = k)) && nodupKeysB t

/-- Well-formed option: trimmed non-empty name, trimmed non-empty pros and
cons elements, distinct score keys. -/
def wfOptionB (o : OptionAnalysis) : Bool :=
  trimmedNonEmptyB o.name && o.pros.all trimmedNonEmptyB &&
    o.cons.all trimmedNonEmptyB && nodupKeysB o.scores

/-- Well-formed trade-off: trimmed non-empty scenario and recommendation. -/
def wfTradeOffB (t : TradeOff) : Bool :=
  trimmedNonEmptyB t.scenario && trimmedNonEmptyB t.recommendation

/-- Well-formed normalized result, as the round-trip claim describes it. -/
def wellFormedB (r : NormalizedComparisonResult) : Bool :=
  !r.options.isEmpty && r.options.all wfOptionB && r.tradeOffs.all wfTradeOffB

/-- No backtick inside `s`. -/
def tickFreeS (s : String) : Bool := !(s.data.any (fun c => c = tickChar))

/-- No backtick in any string field of an option. -/
def tickFreeOptionB (o : OptionAnalysis) : Bool :=
  tickFreeS o.name && o.pros.all tickFreeS && o.cons.all tickFreeS &&
    o.scores.all (fun kv => tickFreeS kv.1 && tickFreeS kv.2)

/-- No backtick in any string field of the result. -/
def tickFreeResultB (r : NormalizedComparisonResult) : Bool :=
  r.options.all tickFreeOptionB &&
    r.tradeOffs.all (fun t => tickFreeS t.scenario && tickFreeS t.recommendation)

/-! ## Spec-side characterizations (stated from the claims' words) -/

/-- A valid option entry as the spec words it: an object with a string
`name` that is non-empty after trimming and with array-valued `pros` and
`cons`. -/
def validOptionB (o : Json) : Bool :=
  truthyObject o &&
  (match jsGet o "name" with
   | some (.str s) => !(jsTrimL s.data).isEmpty
   | _ => false) &&
  (match jsGet o "pros" with | some (.arr _) => true | _ => false) &&
  (match jsGet o "cons" with | some (.arr _) => true | _ => false)

/-- The failure condition of normalization as the spec words it: empty raw
text, unparseable extracted text, non-object parse, missing or empty
`options` array, or some invalid option entry.  Nothing about `tradeOffs`
or `scores` appears here. -/
def specFailB (raw : String) : Bool :=
  raw = "" ||
  match parseJson (extractJson raw) with
  | none => true
  | some p =>
    !truthyObject p ||
    match jsGet p "options" with
    | some (.arr xs) => xs.isNil || xs.any (fun o => !validOptionB o)
    | _ => true

/-- A surviving trade-off as the spec words it: an object with non-empty
trimmed `scenario` and `recommendation` strings, both trimmed in the
output. -/
def specTradeOff (t : Json) : Option TradeOff :=
  if !truthyObject t then none
  else
    match jsGet t "scenario", jsGet t "recommendation" with
    | some (.str sc), some (.str rcm) =>
      if !(jsTrimL sc.data).isEmpty && !(jsTrimL rcm.data).isEmpty then
        some ⟨jsTrim sc, jsTrim rcm⟩
      else none
    | _, _ => none

/-- Filter-map over a JSON array, keeping original order. -/
def jsonlFilterMap (f : Json → Option TradeOff) : JsonList → List TradeOff
  | .nil => []
  | .cons x t =>
    match f x with
    | some y => y :: jsonlFilterMap f t
    | none => jsonlFilterMap f t

/-- The trade-offs the spec promises for a parsed value: the surviving
entries of a `tradeOffs` array in original order, and the empty sequence
when the field is missing or not an array. -/
def specTradeOffs (p : Option Json) : List TradeOff :=
  match p with
  | some v =>
    match jsGet v "tradeOffs" with
    | some (.arr ts) => jsonlFilterMap specTradeOff ts
    | _ => []
  | none => []

/-- The score mapping the spec promises for a `scores` field value: a
present truthy object is copied entry by entry (strings verbatim, `null`
dropped, the rest stringified); anything else yields the empty mapping. -/
def specScores (v : Option Json) : List (String × String) :=
  match v with
  | some w =>
    if truthyObject w then
      (jsEntries w).filterMap (fun kv =>
        match kv.2 with
        | .str s => some (kv.1, s)
        | .null => none
        | u => some (kv.1, jsStringify u))
    else []
  | none => []

/-! ## Generic helper lemmas -/

theorem pfx_mem {p l : List Char} (h : pfx p l = true) : ∀ c ∈ p, c ∈ l := by
  induction p generalizing l with
  | nil => intro c hc; cases hc
  | cons a p ih =>
    cases l with
    | nil => simp [pfx] at h
    | cons b t =>
      simp [pfx] at h
      intro c hc
      rcases List.mem_cons.mp hc with rfl | hc
      · exact h.1 ▸ List.mem_cons_self _ _
      · exact List.mem_cons_of_mem _ (ih h.2 c hc)

theorem subL_mem {p l : List Char} (h : subL p l = true) : ∀ c ∈ p, c ∈ l := by
  induction l with
  | nil =>
    intro c hc
    simp [subL] at h
    cases p with
    | nil => cases hc
    | cons a q => simp [pfx] at h
  | cons b t ih =>
    simp [subL] at h
    rcases h with h | h
    · exact pfx_mem h
    · intro c hc; exact List.mem_cons_of_mem _ (ih h c hc)

theorem grokGo_attempts_le (f : Nat → AttemptOutcome) (mR : Nat) :
    ∀ fuel a, (grokGo f mR a fuel).attempts ≤ fuel := by
  intro fuel
  induction fuel with
  | zero => intro a; simp [grokGo]
  | succ fu ih =>
    intro a
    unfold grokGo
    cases f a with
    | ok p =>
      cases p with
      | invalid => simp
      | content c => simp
    | http st body =>
      by_cases hr : (!(httpError st body).isRetryable || a = mR : Bool)
      · simp [hr]
      · simp [hr, GrokRun.after]
        exact ih (a + 1)
    | network m =>
      by_cases hm : a = mR
      · simp [hm]
      · simp [hm, GrokRun.after]
        exact ih (a + 1)

theorem range_map_delay (a n : Nat) :
    (List.range (n + 1)).map (fun k => delayMs (a + k)) =
      delayMs a :: (List.range n).map (fun k => delayMs (a + 1 + k)) := by
  rw [List.range_succ_eq_map, List.map_cons, List.map_map]
  simp only [List.cons.injEq]
  refine ⟨by simp, ?_⟩
  apply List.map_congr_left
  intro k _
  show delayMs (a + Nat.succ k) = delayMs (a + 1 + k)
  congr 1
  omega

theorem grokGo_all_retryable (f : Nat → AttemptOutcome) (mR : Nat) :
    ∀ fuel a, a + fuel = mR + 1 →
      (∀ i, a ≤ i → i ≤ mR → retryableOutcome (f i) = true) →
      (grokGo f mR a fuel).attempts = fuel ∧
      (grokGo f mR a fuel).result.isOk = false ∧
      (grokGo f mR a fuel).waits =
        (List.range (fuel - 1)).map (fun k => delayMs (a + k)) := by
  intro fuel
  induction fuel with
  | zero => intro a _ _; simp [grokGo, Except.isOk, Except.toBool]
  | succ fu ih =>
    intro a ha hr
    have haM : a ≤ mR := by omega
    have hfa : retryableOutcome (f a) = true := hr a le_rfl haM
    unfold grokGo
    cases hfv : f a with
    | ok p => rw [hfv] at hfa; simp [retryableOutcome] at hfa
    | http st body =>
      rw [hfv] at hfa
      have hret : (httpError st body).isRetryable = true := by
        simpa [retryableOutcome, httpError, createGrokError] using hfa
      by_cases haeq : a = mR
      · have hfu : fu = 0 := by omega
        simp [hret, haeq, hfu, Except.isOk, Except.toBool]
      · have hfu : 1 ≤ fu := by omega
        have := ih (a + 1) (by omega) (fun i h1 h2 => hr i (by omega) h2)
        simp [hret, haeq, GrokRun.after, this.1, this.2.1, this.2.2]
        rw [show fu = (fu - 1) + 1 by omega, range_map_delay]
        simp
    | network m =>
      by_cases haeq : a = mR
      · have hfu : fu = 0 := by omega
        simp [haeq, hfu, Except.isOk, Except.toBool]
      · have hfu : 1 ≤ fu := by omega
        have := ih (a + 1) (by omega) (fun i h1 h2 => hr i (by omega) h2)
        simp [haeq, GrokRun.after, this.1, this.2.1, this.2.2]
        rw [show fu = (fu - 1) + 1 by omega, range_map_delay]
        simp

theorem grokGo_skip (f : Nat → AttemptOutcome) (mR : Nat) :
    ∀ fuel a j, a + fuel = mR + 1 → a ≤ j → j ≤ mR →
      (∀ i, a ≤ i → i < j → retryableOutcome (f i) = true) →
      grokGo f mR a fuel =
        ⟨(grokGo f mR j (mR + 1 - j)).result,
         (grokGo f mR j (mR + 1 - j)).attempts + (j - a),
         ((List.range (j - a)).map (fun k => delayMs (a + k))) ++
           (grokGo f mR j (mR + 1 - j)).waits⟩ := by
  intro fuel
  induction fuel with
  | zero => intro a j ha haj hj _; omega
  | succ fu ih =>
    intro a j ha haj hj hr
    by_cases heq : a = j
    · subst heq
      have : mR + 1 - a = fu + 1 := by omega
      rw [this]
      simp
    · have haltj : a < j := by omega
      have hfa : retryableOutcome (f a) = true := hr a le_rfl haltj
      have hrec := ih (a + 1) j (by omega) (by omega) hj
        (fun i h1 h2 => hr i (by omega) h2)
      have hja : j - a = (j - (a + 1)) + 1 := by omega
      have haeq : ¬ a = mR := by omega
      generalize hR : grokGo f mR j (mR + 1 - j) = R at hrec ⊢
      unfold grokGo
      cases hfv : f a with
      | ok p => rw [hfv] at hfa; simp [retryableOutcome] at hfa
      | http st body =>
        rw [hfv] at hfa
        have hret : (httpError st body).isRetryable = true := by
          simpa [retryableOutcome, httpError, createGrokError] using hfa
        simp [hret, haeq, GrokRun.after, hrec, hja, range_map_delay]
        omega
      | network m =>
        simp [haeq, GrokRun.after, hrec, hja, range_map_delay]
        omega

theorem delays_shift (n : Nat) :
    (List.range n).map (fun k => delayMs (1 + k)) =
      (List.range n).map (fun k => BASE_DELAY_MS * 2 ^ k) := by
  apply List.map_congr_left
  intro k _
  show BASE_DELAY_MS * 2 ^ (1 + k - 1) = BASE_DELAY_MS * 2 ^ k
  congr 2
  omega

theorem grokGo_fatal_http (f : Nat → AttemptOutcome) (mR j fu : Nat)
    (st : Nat) (body : String) (hfv : f j = .http st body)
    (hfatal : ((st = 429 : Bool) || 500 ≤ st) = false) :
    grokGo f mR j (fu + 1) = ⟨.error (httpError st body), 1, []⟩ := by
  have hret : (httpError st body).isRetryable = false := by
    simpa [httpError, createGrokError] using hfatal
  unfold grokGo
  rw [hfv]
  simp [hret]

theorem grokGo_ok_payload (f : Nat → AttemptOutcome) (mR j fu : Nat)
    (c : Option String) (hfv : f j = .ok (.content c)) :
    grokGo f mR j (fu + 1) = ⟨.ok (c.getD ""), 1, []⟩ := by
  unfold grokGo
  rw [hfv]

theorem grokGo_ok_invalid (f : Nat → AttemptOutcome) (mR j fu : Nat)
    (hfv : f j = .ok .invalid) :
    grokGo f mR j (fu + 1) = ⟨.error invalidStructureError, 1, []⟩ := by
  unfold grokGo
  rw [hfv]

/-- C1: the completion client issues at most `maxRetries` attempts; when
every attempt fails retryably (HTTP 429 or at least 500, or a network-level
failure) exactly `maxRetries` attempts are issued, a wait of
`BASE_DELAY_MS * 2 ^ (attempt - 1)` milliseconds follows every failed
attempt except the last, and the run ends in the client error; a fatal
non-success status ends the run immediately after its own attempt with no
further attempt and no further wait. -/
theorem C1_retry_and_backoff :
    (∀ f mR, (callGrokWithRetry f mR).attempts ≤ mR) ∧
    (∀ f mR, 1 ≤ mR →
      (∀ i, 1 ≤ i → i ≤ mR → retryableOutcome (f i) = true) →
      (callGrokWithRetry f mR).attempts = mR ∧
      (callGrokWithRetry f mR).result.isOk = false ∧
      (callGrokWithRetry f mR).waits =
        (List.range (mR - 1)).map (fun k => BASE_DELAY_MS * 2 ^ k)) ∧
    (∀ f mR j st body, 1 ≤ j → j ≤ mR →
      (∀ i, 1 ≤ i → i < j → retryableOutcome (f i) = true) →
      f j = .http st body → ((st = 429 : Bool) || 500 ≤ st) = false →
      callGrokWithRetry f mR =
        ⟨.error (httpError st body), j,
         (List.range (j - 1)).map (fun k => BASE_DELAY_MS * 2 ^ k)⟩) := by
  refine ⟨?_, ?_, ?_⟩
  · intro f mR
    exact grokGo_attempts_le f mR mR 1
  · intro f mR h1 hr
    have := grokGo_all_retryable f mR mR 1 (by omega) hr
    refine ⟨this.1, this.2.1, ?_⟩
    rw [show (callGrokWithRetry f mR).waits = (grokGo f mR 1 mR).waits from rfl,
      this.2.2, delays_shift]
  · intro f mR j st body h1 hj hr hfv hfatal
    have hskip := grokGo_skip f mR mR 1 j (by omega) h1 hj
      (fun i hi1 hi2 => hr i hi1 hi2)
    have hfj : grokGo f mR j (mR + 1 - j) = ⟨.error (httpError st body), 1, []⟩ := by
      rw [show mR + 1 - j = (mR - j) + 1 by omega]
      exact grokGo_fatal_http f mR j (mR - j) st body hfv hfatal
    show grokGo f mR 1 mR = _
    rw [hskip, hfj]
    simp [delays_shift]
    omega

/-- C1 witness: three straight 500 responses give exactly three attempts,
waits of 1000 ms and 2000 ms, and a failed result. -/
theorem C1_retry_and_backoff_witness :
    (callGrokWithRetry (fun _ => .http 500 "boom") 3).attempts = 3 ∧
    (callGrokWithRetry (fun _ => .http 500 "boom") 3).result.isOk = false ∧
    (callGrokWithRetry (fun _ => .http 500 "boom") 3).waits =
      (List.range 2).map (fun k => BASE_DELAY_MS * 2 ^ k) :=
  C1_retry_and_backoff.2.1 (fun _ => .http 500 "boom") 3 (by decide)
    (fun _ _ _ => rfl)

/-- C4 (amended): on a success (2xx) response, a broken
`choices[0].message` chain fails the call immediately with the
non-retryable malformed-response error (no status code, never retried); a
present message returns its `content` string with the empty string as
fallback, so a non-empty content is returned verbatim while an absent or
empty content yields the empty string, not an error. -/
theorem C4_success_payload_handling :
    ∀ f mR j, 1 ≤ j → j ≤ mR →
      (∀ i, 1 ≤ i → i < j → retryableOutcome (f i) = true) →
      (f j = .ok .invalid →
        callGrokWithRetry f mR =
          ⟨.error invalidStructureError, j,
           (List.range (j - 1)).map (fun k => BASE_DELAY_MS * 2 ^ k)⟩ ∧
        invalidStructureError.isRetryable = false ∧
        invalidStructureError.statusCode = none ∧
        invalidStructureError.message = "Invalid response structure from Groq API") ∧
      (∀ c, f j = .ok (.content c) →
        callGrokWithRetry f mR =
          ⟨.ok (c.getD ""), j,
           (List.range (j - 1)).map (fun k => BASE_DELAY_MS * 2 ^ k)⟩) ∧
      (∀ s, f j = .ok (.content (some s)) →
        (callGrokWithRetry f mR).result = .ok s) ∧
      (f j = .ok (.content none) →
        (callGrokWithRetry f mR).result = .ok "") := by
  intro f mR j h1 hj hr
  have hskip := grokGo_skip f mR mR 1 j (by omega) h1 hj
    (fun i hi1 hi2 => hr i hi1 hi2)
  have hsplit : mR + 1 - j = (mR - j) + 1 := by omega
  refine ⟨?_, ?_, ?_, ?_⟩
  · intro hfv
    have hfj : grokGo f mR j (mR + 1 - j) = ⟨.error invalidStructureError, 1, []⟩ := by
      rw [hsplit]; exact grokGo_ok_invalid f mR j (mR - j) hfv
    refine ⟨?_, rfl, rfl, rfl⟩
    show grokGo f mR 1 mR = _
    rw [hskip, hfj]
    simp [delays_shift]
    omega
  · intro c hfv
    have hfj : grokGo f mR j (mR + 1 - j) = ⟨.ok (c.getD ""), 1, []⟩ := by
      rw [hsplit]; exact grokGo_ok_payload f mR j (mR - j) c hfv
    show grokGo f mR 1 mR = _
    rw [hskip, hfj]
    simp [delays_shift]
    omega
  · intro s hfv
    have hfj : grokGo f mR j (mR + 1 - j) = ⟨.ok s, 1, []⟩ := by
      rw [hsplit]; exact grokGo_ok_payload f mR j (mR - j) (some s) hfv
    show (grokGo f mR 1 mR).result = _
    rw [hskip]
    rw [hfj]
  · intro hfv
    have hfj : grokGo f mR j (mR + 1 - j) = ⟨.ok "", 1, []⟩ := by
      rw [hsplit]; exact grokGo_ok_payload f mR j (mR - j) none hfv
    show (grokGo f mR 1 mR).result = _
    rw [hskip]
    rw [hfj]

/-- C4 counterexample: with a success payload whose message has no
`content` field, the call succeeds with the empty string instead of
failing with a malformed-response error, contradicting the claim that an
absent or empty content field fails the call. -/
theorem C4_empty_content_counterexample :
    (callGrokWithRetry (fun _ => .ok (.content none)) 3).result = .ok "" ∧
    (callGrokWithRetry (fun _ => .ok (.content (some ""))) 3).result = .ok "" := by
  constructor <;> rfl

/-- C4 witness: a first-attempt payload with a broken message chain fails
immediately with the malformed-response error. -/
theorem C4_success_payload_handling_witness :
    callGrokWithRetry (fun _ => .ok .invalid) 3 =
      ⟨.error invalidStructureError, 1,
       (List.range 0).map (fun k => BASE_DELAY_MS * 2 ^ k)⟩ ∧
    invalidStructureError.isRetryable = false ∧
    invalidStructureError.statusCode = none ∧
    invalidStructureError.message = "Invalid response structure from Groq API" :=
  (C4_success_payload_handling (fun _ => .ok .invalid) 3 1 (by decide) (by decide)
    (fun i hi1 hi2 => absurd (Nat.lt_of_lt_of_le hi2 hi1) (by omega))).1 rfl

theorem mem_str_append_left (c : Char) (a b : String) (h : c ∈ a.data) :
    c ∈ (a ++ b).data := by
  rw [String.data_append]
  exact List.mem_append_left _ h

theorem mem_str_append_right (c : Char) (a b : String) (h : c ∈ b.data) :
    c ∈ (a ++ b).data := by
  rw [String.data_append]
  exact List.mem_append_right _ h

theorem validateOption_error_chars (o : Json) (i : Nat) (e : String)
    (h : validateOption o i = .error e) : 'm' ∈ e.data ∨ 'x' ∈ e.data := by
  unfold validateOption at h
  split at h
  · simp only [Except.error.injEq] at h
    subst h
    right
    exact mem_str_append_left _ _ _ (mem_str_append_left _ _ _ (by decide))
  · split at h
    · split at h
      · simp only [Except.error.injEq] at h
        subst h
        right
        exact mem_str_append_left _ _ _ (mem_str_append_left _ _ _ (by decide))
      · split at h
        · split at h
          · exact absurd h (by simp)
          · simp only [Except.error.injEq] at h
            subst h
            left
            exact mem_str_append_right _ _ _ (by decide)
        · simp only [Except.error.injEq] at h
          subst h
          left
          exact mem_str_append_right _ _ _ (by decide)
    · simp only [Except.error.injEq] at h
      subst h
      right
      exact mem_str_append_left _ _ _ (mem_str_append_left _ _ _ (by decide))

theorem validateOptions_error_chars :
    ∀ (xs : JsonList) (i : Nat) (e : String),
      validateOptions i xs = .error e → 'm' ∈ e.data ∨ 'x' ∈ e.data
  | .nil, i, e, h => by simp [validateOptions] at h
  | .cons o t, i, e, h => by
    unfold validateOptions at h
    cases ho : validateOption o i with
    | error e0 =>
      rw [ho] at h
      simp only [Except.error.injEq] at h
      subst h
      exact validateOption_error_chars o i e0 ho
    | ok a =>
      rw [ho] at h
      cases ht : validateOptions (i + 1) t with
      | error e1 =>
        rw [ht] at h
        simp only [Except.error.injEq] at h
        subst h
        exact validateOptions_error_chars t (i + 1) e1 ht
      | ok rest => rw [ht] at h; simp at h

theorem normalize_error_chars (raw : String) (e : String)
    (h : normalizeGrokResponse raw = .error e) :
    'm' ∈ e.data ∨ 'x' ∈ e.data ∨ 'J' ∈ e.data ∨ 'v' ∈ e.data := by
  unfold normalizeGrokResponse at h
  split at h
  · simp only [Except.error.injEq] at h; subst h; left; decide
  · split at h
    · simp only [Except.error.injEq] at h; subst h; right; right; left; decide
    · rename_i parsed _
      split at h
      · simp only [Except.error.injEq] at h; subst h; right; right; right; decide
      · split at h
        · rename_i xs _
          split at h
          · simp only [Except.error.injEq] at h; subst h; left; decide
          · cases hv : validateOptions 0 xs with
            | error e1 =>
              rw [hv] at h
              simp only [Except.error.injEq] at h
              subst h
              rcases validateOptions_error_chars xs 0 e1 hv with hm | hx
              · exact Or.inl hm
              · exact Or.inr (Or.inl hx)
            | ok opts => rw [hv] at h; simp at h
        · simp only [Except.error.injEq] at h; subst h; left; decide

theorem normalize_error_not_in_generic (raw : String) (e : String)
    (h : normalizeGrokResponse raw = .error e) :
    subL e.data normalizationFailureMsg.data = false := by
  by_contra hc
  have hsub : subL e.data normalizationFailureMsg.data = true := by
    cases hx : subL e.data normalizationFailureMsg.data
    · exact absurd hx hc
    · rfl
  have hmem := subL_mem hsub
  rcases normalize_error_chars raw e h with hm | hx | hj | hv
  · exact absurd (hmem 'm' hm) (by decide)
  · exact absurd (hmem 'x' hx) (by decide)
  · exact absurd (hmem 'J' hj) (by decide)
  · exact absurd (hmem 'v' hv) (by decide)

/-- C8: `executeComparison` fails with a typed error at the first failing
step: a failing request store gives status 500 and touches nothing; a
failing completion call gives status 502 with the underlying message
preserved, with the request record kept and no result stored; a failing
normalization gives status 502 with the user-safe generic message, which
never contains the normalizer diagnostic, again keeping the request and
storing no result; a failing result store gives status 500 with the
request kept. -/
theorem C8_orchestrator_error_mapping :
    ∀ (env : OrchestratorEnv) (db : Db) (input : ComparisonInput),
      (env.requestFails = true →
        executeComparison env db input =
          (.error ⟨"Failed to store comparison request", "database_error", 500⟩, db)) ∧
      (env.requestFails = false →
        ∀ m, env.grok = .error m →
          executeComparison env db input =
            (.error ⟨"AI service is currently unavailable: " ++ m,
              "ai_service_error", 502⟩,
             ⟨db.requests ++ [(env.newId, input)], db.results⟩)) ∧
      (env.requestFails = false →
        ∀ raw d, env.grok = .ok raw → normalizeGrokResponse raw = .error d →
          executeComparison env db input =
            (.error ⟨normalizationFailureMsg, "normalization_error", 502⟩,
             ⟨db.requests ++ [(env.newId, input)], db.results⟩) ∧
          subL d.data normalizationFailureMsg.data = false) ∧
      (env.requestFails = false →
        ∀ raw res, env.grok = .ok raw → normalizeGrokResponse raw = .ok res →
          env.resultFails = true →
          executeComparison env db input =
            (.error ⟨"Failed to store comparison result", "database_error", 500⟩,
             ⟨db.requests ++ [(env.newId, input)], db.results⟩)) ∧
      (env.requestFails = false →
        ∀ raw res, env.grok = .ok raw → normalizeGrokResponse raw = .ok res →
          env.resultFails = false →
          executeComparison env db input =
            (.ok ⟨env.newId, res.options, res.tradeOffs, env.now⟩,
             ⟨db.requests ++ [(env.newId, input)],
              db.results ++ [(env.newId, res)]⟩)) := by
  intro env db input
  refine ⟨?_, ?_, ?_, ?_, ?_⟩
  · intro hrf
    simp [executeComparison, hrf]
  · intro hrf m hg
    simp [executeComparison, hrf, hg]
  · intro hrf raw d hg hn
    refine ⟨?_, normalize_error_not_in_generic raw d hn⟩
    simp [executeComparison, hrf, hg, hn]
  · intro hrf raw res hg hn hresf
    simp [executeComparison, hrf, hg, hn, hresf]
  · intro hrf raw res hg hn hresf
    simp [executeComparison, hrf, hg, hn, hresf]

/-- C8 witness: with a healthy request store and a failing completion call,
the orchestrator returns the 502 `ai_service_error` carrying the underlying
message, keeps the stored request and stores no result. -/
theorem C8_orchestrator_error_mapping_witness :
    executeComparison ⟨false, "id1", .error "boom", false, "t0"⟩ ⟨[], []⟩
        ⟨["A", "B"], ["cost"]⟩ =
      (.error ⟨"AI service is currently unavailable: " ++ "boom",
        "ai_service_error", 502⟩,
       ⟨[] ++ [("id1", ⟨["A", "B"], ["cost"]⟩)], []⟩) :=
  (C8_orchestrator_error_mapping ⟨false, "id1", .error "boom", false, "t0"⟩
    ⟨[], []⟩ ⟨["A", "B"], ["cost"]⟩).2.1 rfl "boom" rfl

theorem substr_refl (p : String) : SubStr p p :=
  ⟨[], [], by simp⟩

theorem substr_append_left {p a : String} (b : String) (h : SubStr p a) :
    SubStr p (a ++ b) := by
  rcases h with ⟨l, r, hd⟩
  exact ⟨l, r ++ b.data, by rw [String.data_append, hd]; simp⟩

theorem substr_append_right {p b : String} (a : String) (h : SubStr p b) :
    SubStr p (a ++ b) := by
  rcases h with ⟨l, r, hd⟩
  exact ⟨a.data ++ l, r, by rw [String.data_append, hd]; simp⟩

theorem substr_joinNL (x : String) (l : List String) (h : x ∈ l) :
    SubStr x (joinNL l) := by
  induction l with
  | nil => cases h
  | cons a t ih =>
    rcases List.mem_cons.mp h with rfl | hmem
    · cases t with
      | nil => exact substr_refl x
      | cons b t2 =>
        show SubStr x (x ++ "\n" ++ joinNL (b :: t2))
        exact substr_append_left _ (substr_append_left _ (substr_refl x))
    · cases t with
      | nil => cases hmem
      | cons b t2 =>
        show SubStr x (a ++ "\n" ++ joinNL (b :: t2))
        exact substr_append_right _ (ih hmem)

theorem numItems_get :
    ∀ (xs : List String) (n i : Nat) (h : i < xs.length),
      (toString (n + i) ++ ". " ++ xs.get ⟨i, h⟩) ∈ numItems n xs := by
  intro xs
  induction xs with
  | nil => intro n i h; cases h
  | cons a t ih =>
    intro n i h
    cases i with
    | zero => simp [numItems]
    | succ j =>
      have hj : j < t.length := by simpa using h
      have := ih (n + 1) j hj
      have harg : n + (j + 1) = (n + 1) + j := by omega
      rw [List.get_cons_succ]
      exact List.mem_cons_of_mem _ (by rw [harg]; exact this)

/-- C9 (amended): for every index, the prompt textually contains the
numbered entry `⟨ordinal⟩. ⟨text⟩` for that option and that constraint
(ordinals are 1-based and follow input order), and it contains the literal
instruction against declaring a winner; the function is a pure total
function of its arguments.  (Exact-once containment fails: see the
counterexample.) -/
theorem C9_prompt_contents :
    ∀ opts cns : List String,
      (∀ i, ∀ h : i < opts.length,
        SubStr (toString (i + 1) ++ ". " ++ opts.get ⟨i, h⟩)
          (buildComparisonPrompt opts cns)) ∧
      (∀ i, ∀ h : i < cns.length,
        SubStr (toString (i + 1) ++ ". " ++ cns.get ⟨i, h⟩)
          (buildComparisonPrompt opts cns)) ∧
      SubStr noWinnerInstr (buildComparisonPrompt opts cns) := by
  intro opts cns
  refine ⟨?_, ?_, ?_⟩
  · intro i h
    have hmem := numItems_get opts 1 i h
    rw [Nat.add_comm 1 i] at hmem
    have hJ := substr_joinNL _ _ hmem
    show SubStr _ (promptIntro ++ joinNL (numItems 1 opts) ++ promptMid ++
      joinNL (numItems 1 cns) ++ promptRest)
    exact substr_append_left _ (substr_append_left _ (substr_append_left _
      (substr_append_right _ hJ)))
  · intro i h
    have hmem := numItems_get cns 1 i h
    rw [Nat.add_comm 1 i] at hmem
    have hJ := substr_joinNL _ _ hmem
    show SubStr _ (promptIntro ++ joinNL (numItems 1 opts) ++ promptMid ++
      joinNL (numItems 1 cns) ++ promptRest)
    exact substr_append_left _ (substr_append_right _ hJ)
  · show SubStr _ (promptIntro ++ joinNL (numItems 1 opts) ++ promptMid ++
      joinNL (numItems 1 cns) ++ promptRest)
    apply substr_append_right
    show SubStr noWinnerInstr
      ("\n\nINSTRUCTIONS:\n1. Analyze each option against ALL constraints\n2. List specific pros and cons for each option\n3. " ++
        noWinnerInstr ++ _)
    exact substr_append_left _ (substr_append_right _ (substr_refl _))

set_option maxRecDepth 10000 in
/-- C9 counterexample: for the inputs of the spec's own end-to-end example
the option text `A` occurs eleven times in the prompt (the fixed template
text contains capital `A`s), so the prompt does not contain every option
exactly once. -/
theorem C9_exactly_once_counterexample :
    countOcc "A".data (buildComparisonPrompt ["A", "B"] ["cost"]).data ≠ 1 := by
  decide

/-- C9 witness: the numbered first option entry occurs in a concrete
prompt. -/
theorem C9_prompt_contents_witness :
    SubStr (toString (0 + 1) ++ ". " ++ (["alpha"].get ⟨0, by decide⟩))
      (buildComparisonPrompt ["alpha"] ["cost"]) :=
  (C9_prompt_contents ["alpha"] ["cost"]).1 0 (by decide)

/-- Success test for `Except`. -/
def exceptOk {ε α : Type} : Except ε α → Bool
  | .ok _ => true
  | .error _ => false

theorem validateOption_isOk (o : Json) (i : Nat) :
    exceptOk (validateOption o i) = validOptionB o := by
  unfold validateOption validOptionB
  cases ho : truthyObject o with
  | false => simp [ho, exceptOk]
  | true =>
    simp only [ho, Bool.not_true, Bool.true_and]
    cases hn : jsGet o "name" with
    | none => simp [exceptOk]
    | some v =>
      cases v with
      | str s =>
        by_cases hs : jsTrimL s.data = []
        · simp [hs, exceptOk, List.isEmpty_iff]
        · simp only [if_neg hs]
          have : (jsTrimL s.data).isEmpty = false := by
            simpa [List.isEmpty_iff] using hs
          simp only [this, Bool.not_false, Bool.true_and]
          cases hp : jsGet o "pros" with
          | none => simp [exceptOk]
          | some pv =>
            cases pv <;> try simp [exceptOk]
            rename_i ps
            cases hc : jsGet o "cons" with
            | none => simp [exceptOk]
            | some cv => cases cv <;> simp [exceptOk]
      | null => simp [exceptOk]
      | bool b => simp [exceptOk]
      | num n => simp [exceptOk]
      | arr xs => simp [exceptOk]
      | obj fs => simp [exceptOk]

theorem validateOptions_isOk :
    ∀ (xs : JsonList) (i : Nat),
      exceptOk (validateOptions i xs) = JsonList.all validOptionB xs
  | .nil, i => by simp [validateOptions, JsonList.all, exceptOk]
  | .cons o t, i => by
    unfold validateOptions JsonList.all
    cases ho : validateOption o i with
    | error e =>
      have := validateOption_isOk o i
      rw [ho] at this
      simp [exceptOk, ← this]
    | ok a =>
      have := validateOption_isOk o i
      rw [ho] at this
      rw [← this]
      cases ht : validateOptions (i + 1) t with
      | error e1 =>
        have h2 := validateOptions_isOk t (i + 1)
        rw [ht] at h2
        simp [exceptOk, ← h2]
      | ok rest =>
        have h2 := validateOptions_isOk t (i + 1)
        rw [ht] at h2
        simp [exceptOk, ← h2]

theorem jsonlist_all_eq_not_any_not (p : Json → Bool) :
    ∀ xs : JsonList, JsonList.all p xs = !(JsonList.any (fun o => !(p o)) xs)
  | .nil => by simp [JsonList.all, JsonList.any]
  | .cons x t => by
    simp [JsonList.all, JsonList.any, jsonlist_all_eq_not_any_not p t]

/-- C2: normalization fails exactly on the conditions the spec lists —
empty raw text, unparseable extracted text, a non-object parse, a missing
or empty `options` array, or some invalid option entry (so any invalid
option fails the whole normalization, and nothing inside `tradeOffs` or
`scores` appears in the failure condition); in particular the input
consisting only of an empty `tradeOffs` array fails with the
missing-options error. -/
theorem C2_failure_characterization :
    (∀ raw, exceptOk (normalizeGrokResponse raw) = !(specFailB raw)) ∧
    normalizeGrokResponse "\x7b\"tradeOffs\":[]\x7d" =
      .error "Response is missing required \"options\" array" := by
  constructor
  · intro raw
    unfold normalizeGrokResponse specFailB
    by_cases hraw : raw = ""
    · simp [hraw, exceptOk]
    · simp only [if_neg hraw, decide_eq_true_eq]
      cases hp : parseJson (extractJson raw) with
      | none => simp [exceptOk, hraw]
      | some p =>
        simp only []
        cases hto : truthyObject p with
        | false => simp [hto, exceptOk, hraw]
        | true =>
          simp only [hto, Bool.not_true]
          cases hg : jsGet p "options" with
          | none => simp [exceptOk, hraw]
          | some v =>
            cases v with
            | arr xs =>
              cases hnil : JsonList.isNil xs with
              | true => simp [hnil, exceptOk, hraw]
              | false =>
                simp only [hnil, if_false]
                cases hv : validateOptions 0 xs with
                | error e =>
                  have := validateOptions_isOk xs 0
                  rw [hv] at this
                  rw [jsonlist_all_eq_not_any_not] at this
                  simp [exceptOk] at this
                  simp [exceptOk, hraw, hnil, this]
                | ok opts =>
                  have := validateOptions_isOk xs 0
                  rw [hv] at this
                  rw [jsonlist_all_eq_not_any_not] at this
                  simp [exceptOk] at this
                  simp [exceptOk, hraw, hnil, this]
            | null => simp [exceptOk, hraw]
            | bool b => simp [exceptOk, hraw]
            | num n => simp [exceptOk, hraw]
            | str s => simp [exceptOk, hraw]
            | obj fs => simp [exceptOk, hraw]
  · rfl

theorem dropWhile_idem (p : Char → Bool) (l : List Char) :
    List.dropWhile p (List.dropWhile p l) = List.dropWhile p l := by
  induction l with
  | nil => simp
  | cons c t ih =>
    by_cases hc : p c
    · simp [List.dropWhile_cons, hc, ih]
    · simp [List.dropWhile_cons, hc]

theorem dropWhile_shape (p : Char → Bool) (l : List Char) :
    List.dropWhile p l = [] ∨
      ∃ c t, List.dropWhile p l = c :: t ∧ p c = false := by
  induction l with
  | nil => left; simp
  | cons c t ih =>
    by_cases hc : p c
    · simpa [List.dropWhile_cons, hc] using ih
    · right; exact ⟨c, t, by simp [List.dropWhile_cons, hc], by simpa using hc⟩

theorem dropTrailWs_head (c : Char) (t : List Char) :
    dropTrailWs (c :: t) = [] ∨ ∃ r, dropTrailWs (c :: t) = c :: r := by
  unfold dropTrailWs
  cases h : dropTrailWs t with
  | nil =>
    by_cases hc : isJsWsChar c
    · left; simp [hc]
    · right; exact ⟨[], by simp [hc]⟩
  | cons x xs => right; exact ⟨x :: xs, rfl⟩

theorem dropTrailWs_idem (l : List Char) :
    dropTrailWs (dropTrailWs l) = dropTrailWs l := by
  induction l with
  | nil => simp [dropTrailWs]
  | cons c t ih =>
    cases h : dropTrailWs t with
    | nil =>
      by_cases hc : isJsWsChar c
      · have hE : dropTrailWs (c :: t) = [] := by
          unfold dropTrailWs; rw [h]; simp [hc]
        rw [hE]; rfl
      · have hE : dropTrailWs (c :: t) = [c] := by
          unfold dropTrailWs; rw [h]; simp [hc]
        rw [hE]
        show dropTrailWs (c :: []) = [c]
        unfold dropTrailWs
        simp [dropTrailWs, hc]
    | cons x xs =>
      rw [h] at ih
      have hE : dropTrailWs (c :: t) = c :: x :: xs := by
        unfold dropTrailWs; rw [h]
      rw [hE]
      show dropTrailWs (c :: x :: xs) = c :: x :: xs
      unfold dropTrailWs
      rw [ih]

theorem jsTrimL_idem (l : List Char) : jsTrimL (jsTrimL l) = jsTrimL l := by
  unfold jsTrimL
  rcases dropWhile_shape isJsWsChar l with h | ⟨c, t, h, hc⟩
  · simp [h, dropTrailWs]
  · rw [h]
    rcases dropTrailWs_head c t with h2 | ⟨r, h2⟩
    · rw [h2]; rfl
    · rw [h2]
      have : List.dropWhile isJsWsChar (c :: r) = c :: r := by
        simp [List.dropWhile_cons, hc]
      rw [this, ← h2, dropTrailWs_idem]

theorem strFilter_mem :
    ∀ (xs : JsonList) (p : String), p ∈ strFilter xs → jsTrimL p.data ≠ []
  | .nil, p, h => by simp [strFilter] at h
  | .cons x t, p, h => by
    cases x with
    | str s =>
      unfold strFilter at h
      by_cases hs : jsTrimL s.data = []
      · rw [if_pos hs] at h
        exact strFilter_mem t p h
      · rw [if_neg hs] at h
        rcases List.mem_cons.mp h with rfl | h2
        · exact hs
        · exact strFilter_mem t p h2
    | null => exact strFilter_mem t p (by simpa [strFilter] using h)
    | bool b => exact strFilter_mem t p (by simpa [strFilter] using h)
    | num n => exact strFilter_mem t p (by simpa [strFilter] using h)
    | arr ys => exact strFilter_mem t p (by simpa [strFilter] using h)
    | obj fs => exact strFilter_mem t p (by simpa [strFilter] using h)

theorem mkStr_eq_empty (l : List Char) : (⟨l⟩ : String) = "" ↔ l = [] := by
  constructor
  · intro h
    have := congrArg String.data h
    simpa using this
  · intro h
    rw [h]

theorem validateOption_ok_shape (v : Json) (j : Nat) (o : OptionAnalysis)
    (h : validateOption v j = .ok o) :
    jsTrim o.name = o.name ∧ o.name ≠ "" ∧
    (∀ p ∈ o.pros, jsTrim p ≠ "") ∧ (∀ q ∈ o.cons, jsTrim q ≠ "") := by
  unfold validateOption at h
  cases ht : truthyObject v with
  | false => rw [ht] at h; simp at h
  | true =>
    rw [ht] at h
    simp only [Bool.not_true, Bool.false_eq_true, if_false] at h
    cases hn : jsGet v "name" with
    | none => rw [hn] at h; simp at h
    | some nv =>
      rw [hn] at h
      cases nv with
      | str s =>
        dsimp only at h
        by_cases hs : jsTrimL s.data = []
        · rw [if_pos hs] at h; simp at h
        · rw [if_neg hs] at h
          cases hp : jsGet v "pros" with
          | none => rw [hp] at h; simp at h
          | some pv =>
            rw [hp] at h
            cases pv with
            | arr ps =>
              dsimp only at h
              cases hc : jsGet v "cons" with
              | none => rw [hc] at h; simp at h
              | some cv =>
                rw [hc] at h
                cases cv with
                | arr cs2 =>
                  dsimp only at h
                  simp only [Except.ok.injEq] at h
                  subst h
                  refine ⟨?_, ?_, ?_, ?_⟩
                  · show jsTrim (jsTrim s) = jsTrim s
                    show (⟨jsTrimL (jsTrimL s.data)⟩ : String) = ⟨jsTrimL s.data⟩
                    rw [jsTrimL_idem]
                  · show (⟨jsTrimL s.data⟩ : String) ≠ ""
                    rw [Ne, mkStr_eq_empty]
                    exact hs
                  · intro p hp2
                    show (⟨jsTrimL p.data⟩ : String) ≠ ""
                    rw [Ne, mkStr_eq_empty]
                    exact strFilter_mem _ p hp2
                  · intro q hq
                    show (⟨jsTrimL q.data⟩ : String) ≠ ""
                    rw [Ne, mkStr_eq_empty]
                    exact strFilter_mem _ q hq
                | null => simp at h
                | bool b => simp at h
                | num n => simp at h
                | str s2 => simp at h
                | obj fs => simp at h
            | null => simp at h
            | bool b => simp at h
            | num n => simp at h
            | str s2 => simp at h
            | obj fs => simp at h
      | null => simp at h
      | bool b => simp at h
      | num n => simp at h
      | arr xs => simp at h
      | obj fs => simp at h

theorem validateOptions_mem :
    ∀ (xs : JsonList) (i : Nat) (opts : List OptionAnalysis),
      validateOptions i xs = .ok opts →
      ∀ o ∈ opts, ∃ v j, validateOption v j = .ok o
  | .nil, i, opts, h => by
    simp [validateOptions] at h
    subst h
    intro o ho
    cases ho
  | .cons x t, i, opts, h => by
    unfold validateOptions at h
    cases hx : validateOption x i with
    | error e => rw [hx] at h; exact absurd h (by simp)
    | ok a =>
      rw [hx] at h
      cases ht : validateOptions (i + 1) t with
      | error e => rw [ht] at h; exact absurd h (by simp)
      | ok rest =>
        rw [ht] at h
        simp only [Except.ok.injEq] at h
        subst h
        intro o ho
        rcases List.mem_cons.mp ho with rfl | h2
        · exact ⟨x, i, hx⟩
        · exact validateOptions_mem t (i + 1) rest ht o h2

/-- C3 (amended): in every successful normalization every option has a
trimmed non-empty `name`, and every `pros`/`cons` element is a string that
is non-empty after trimming — the elements are kept verbatim, they are
*not* themselves trimmed (see the counterexample). -/
theorem C3_option_invariants :
    ∀ raw r, normalizeGrokResponse raw = .ok r →
      ∀ o ∈ r.options,
        jsTrim o.name = o.name ∧ o.name ≠ "" ∧
        (∀ p ∈ o.pros, jsTrim p ≠ "") ∧ (∀ q ∈ o.cons, jsTrim q ≠ "") := by
  intro raw r h
  unfold normalizeGrokResponse at h
  split at h
  · exact absurd h (by simp)
  · split at h
    · exact absurd h (by simp)
    · split at h
      · exact absurd h (by simp)
      · split at h
        · split at h
          · exact absurd h (by simp)
          · rename_i xs _ _
            cases hv : validateOptions 0 xs with
            | error e => rw [hv] at h; exact absurd h (by simp)
            | ok opts =>
              rw [hv] at h
              simp only [Except.ok.injEq] at h
              subst h
              intro o ho
              rcases validateOptions_mem xs 0 opts hv o ho with ⟨v, j, hvo⟩
              exact validateOption_ok_shape v j o hvo
        · exact absurd h (by simp)

/-- C3 counterexample: a successful normalization whose `pros` element
`" x "` is kept verbatim and is not trimmed, contradicting the claim that
every element of `pros`/`cons` is trimmed. -/
theorem C3_untrimmed_pros_counterexample :
    normalizeGrokResponse
        "\x7b\"options\":[\x7b\"name\":\"A\",\"pros\":[\" x \"],\"cons\":[]\x7d]\x7d" =
      .ok ⟨[⟨"A", [" x "], [], []⟩], []⟩ ∧
    jsTrim " x " ≠ " x " := by
  constructor
  · rfl
  · decide

/-- C3 witness: the amended invariants hold on a concrete successful
normalization. -/
theorem C3_option_invariants_witness :
    jsTrim "A" = "A" ∧ "A" ≠ "" ∧
    (∀ p ∈ ([" x "] : List String), jsTrim p ≠ "") ∧
    (∀ q ∈ ([] : List String), jsTrim q ≠ "") :=
  C3_option_invariants
    "\x7b\"options\":[\x7b\"name\":\"A\",\"pros\":[\" x \"],\"cons\":[]\x7d]\x7d"
    ⟨[⟨"A", [" x "], [], []⟩], []⟩ rfl ⟨"A", [" x "], [], []⟩ (by simp)

theorem validateTradeOff_eq_spec (t : Json) :
    validateTradeOff t = specTradeOff t := by
  unfold validateTradeOff specTradeOff
  cases ht : truthyObject t with
  | false => simp
  | true =>
    simp only [Bool.not_true, Bool.false_eq_true, if_false]
    cases hs : jsGet t "scenario" with
    | none => rfl
    | some sv =>
      cases sv with
      | str sc =>
        cases hr : jsGet t "recommendation" with
        | none => by_cases hsc : jsTrimL sc.data = [] <;> simp [hsc]
        | some rv =>
          cases rv with
          | str rcm =>
            by_cases hsc : jsTrimL sc.data = [] <;>
              by_cases hrc : jsTrimL rcm.data = [] <;>
                simp [hsc, hrc, List.isEmpty_iff]
          | null => by_cases hsc : jsTrimL sc.data = [] <;> simp [hsc]
          | bool b => by_cases hsc : jsTrimL sc.data = [] <;> simp [hsc]
          | num n => by_cases hsc : jsTrimL sc.data = [] <;> simp [hsc]
          | arr xs => by_cases hsc : jsTrimL sc.data = [] <;> simp [hsc]
          | obj fs => by_cases hsc : jsTrimL sc.data = [] <;> simp [hsc]
      | null => rfl
      | bool b => rfl
      | num n => rfl
      | arr xs => rfl
      | obj fs => rfl

theorem collectTradeOffs_eq_spec :
    ∀ ts : JsonList, collectTradeOffs ts = jsonlFilterMap specTradeOff ts
  | .nil => rfl
  | .cons t rest => by
    unfold collectTradeOffs jsonlFilterMap
    rw [validateTradeOff_eq_spec, collectTradeOffs_eq_spec rest]

/-- C5: every successful normalization returns exactly the surviving
trade-offs — entries that are objects with non-empty trimmed `scenario`
and `recommendation` — in their original order, with invalid entries
dropped individually; a missing or non-array `tradeOffs` field yields the
empty sequence; and in particular valid options together with a trade-off
lacking its recommendation still normalize successfully with an empty
trade-off list. -/
theorem C5_tradeoff_degradation :
    (∀ raw r, normalizeGrokResponse raw = .ok r →
      r.tradeOffs = specTradeOffs (parseJson (extractJson raw))) ∧
    normalizeGrokResponse
        "\x7b\"options\":[\x7b\"name\":\"A\",\"pros\":[],\"cons\":[]\x7d],\"tradeOffs\":[\x7b\"scenario\":\"x\"\x7d]\x7d" =
      .ok ⟨[⟨"A", [], [], []⟩], []⟩ := by
  constructor
  · intro raw r h
    unfold normalizeGrokResponse at h
    by_cases hraw : raw = ""
    · rw [if_pos hraw] at h; simp at h
    · rw [if_neg hraw] at h
      cases hp : parseJson (extractJson raw) with
      | none => rw [hp] at h; simp at h
      | some parsed =>
        rw [hp] at h
        dsimp only at h
        cases hto : truthyObject parsed with
        | false => rw [hto] at h; simp at h
        | true =>
          rw [hto] at h
          simp only [Bool.not_true, Bool.false_eq_true, if_false] at h
          cases hg : jsGet parsed "options" with
          | none => rw [hg] at h; simp at h
          | some v =>
            rw [hg] at h
            cases v with
            | arr xs =>
              dsimp only at h
              cases hnil : JsonList.isNil xs with
              | true => rw [hnil] at h; simp at h
              | false =>
                rw [hnil] at h
                simp only [Bool.false_eq_true, if_false] at h
                cases hv : validateOptions 0 xs with
                | error e => rw [hv] at h; simp at h
                | ok opts =>
                  rw [hv] at h
                  simp only [Except.ok.injEq] at h
                  subst h
                  show (match jsGet parsed "tradeOffs" with
                    | some (.arr ts) => collectTradeOffs ts
                    | _ => []) = specTradeOffs (some parsed)
                  unfold specTradeOffs
                  dsimp only
                  cases hT : jsGet parsed "tradeOffs" with
                  | none => rfl
                  | some tv =>
                    cases tv with
                    | arr ts => exact collectTradeOffs_eq_spec ts
                    | null => rfl
                    | bool b => rfl
                    | num n => rfl
                    | str s => rfl
                    | obj fs => rfl
            | null => simp at h
            | bool b => simp at h
            | num n => simp at h
            | str s => simp at h
            | obj fs => simp at h
  · rfl

/-- C5 witness: on a concrete response with one valid and one invalid
trade-off, the returned trade-offs equal the spec-side survivors. -/
theorem C5_tradeoff_degradation_witness :
    (⟨[⟨"A", [], [], []⟩], [⟨"s", "r"⟩]⟩ : NormalizedComparisonResult).tradeOffs =
      specTradeOffs (parseJson (extractJson
        "\x7b\"options\":[\x7b\"name\":\"A\",\"pros\":[],\"cons\":[]\x7d],\"tradeOffs\":[\x7b\"scenario\":\" s \",\"recommendation\":\"r\"\x7d,\x7b\"scenario\":\"x\"\x7d]\x7d")) :=
  C5_tradeoff_degradation.1
    "\x7b\"options\":[\x7b\"name\":\"A\",\"pros\":[],\"cons\":[]\x7d],\"tradeOffs\":[\x7b\"scenario\":\" s \",\"recommendation\":\"r\"\x7d,\x7b\"scenario\":\"x\"\x7d]\x7d"
    ⟨[⟨"A", [], [], []⟩], [⟨"s", "r"⟩]⟩ rfl

theorem foldl_scoresStep (entries : List (String × Json)) :
    ∀ acc : List (String × String),
      entries.foldl scoresStep acc =
        acc ++ entries.filterMap (fun kv =>
          match kv.2 with
          | .str s => some (kv.1, s)
          | .null => none
          | u => some (kv.1, jsStringify u)) := by
  induction entries with
  | nil => intro acc; simp
  | cons kv t ih =>
    intro acc
    rcases kv with ⟨k, v⟩
    cases v with
    | str s => simp [List.foldl_cons, scoresStep, ih, List.filterMap_cons]
    | null => simp [List.foldl_cons, scoresStep, ih, List.filterMap_cons]
    | bool b => simp [List.foldl_cons, scoresStep, ih, List.filterMap_cons]
    | num n => simp [List.foldl_cons, scoresStep, ih, List.filterMap_cons]
    | arr xs => simp [List.foldl_cons, scoresStep, ih, List.filterMap_cons]
    | obj fs => simp [List.foldl_cons, scoresStep, ih, List.filterMap_cons]

theorem scoresOf_eq_spec (o : Json) :
    scoresOf o = specScores (jsGet o "scores") := by
  unfold scoresOf specScores
  cases hs : jsGet o "scores" with
  | none => rfl
  | some v =>
    dsimp only
    by_cases ht : truthyObject v
    · rw [if_pos ht, if_pos ht, foldl_scoresStep]
      simp
    · rw [if_neg ht, if_neg ht]

/-- C7: for every option entry accepted by the normalizer, the produced
score mapping is exactly the lenient spec-side copy of the `scores` field
(strings verbatim, `null` entries dropped, other values stringified, and
the empty mapping when `scores` is absent or not a truthy object); and
acceptance of an option never depends on its `scores` field, which
therefore can never fail the normalization. -/
theorem C7_scores_leniency :
    (∀ o i r, validateOption o i = .ok r →
      r.scores = specScores (jsGet o "scores")) ∧
    (∀ o i, exceptOk (validateOption o i) = validOptionB o) := by
  constructor
  · intro o i r h
    unfold validateOption at h
    cases ht : truthyObject o with
    | false => rw [ht] at h; simp at h
    | true =>
      rw [ht] at h
      simp only [Bool.not_true, Bool.false_eq_true, if_false] at h
      cases hn : jsGet o "name" with
      | none => rw [hn] at h; simp at h
      | some nv =>
        rw [hn] at h
        cases nv with
        | str s =>
          dsimp only at h
          by_cases hsk : jsTrimL s.data = []
          · rw [if_pos hsk] at h; simp at h
          · rw [if_neg hsk] at h
            cases hp : jsGet o "pros" with
            | none => rw [hp] at h; simp at h
            | some pv =>
              rw [hp] at h
              cases pv with
              | arr ps =>
                dsimp only at h
                cases hc : jsGet o "cons" with
                | none => rw [hc] at h; simp at h
                | some cv =>
                  rw [hc] at h
                  cases cv with
                  | arr cs2 =>
                    dsimp only at h
                    simp only [Except.ok.injEq] at h
                    subst h
                    exact scoresOf_eq_spec o
                  | null => simp at h
                  | bool b => simp at h
                  | num n => simp at h
                  | str s2 => simp at h
                  | obj fs => simp at h
              | null => simp at h
              | bool b => simp at h
              | num n => simp at h
              | str s2 => simp at h
              | obj fs => simp at h
        | null => simp at h
        | bool b => simp at h
        | num n => simp at h
        | arr ys => simp at h
        | obj fs => simp at h
  · exact validateOption_isOk

/-- C7 witness: a concrete option whose scores carry a string, a null and
a number produces exactly the spec-side mapping. -/
theorem C7_scores_leniency_witness :
    (⟨"A", [], [],
      [("cost", "good"), ("speed", "7")]⟩ : OptionAnalysis).scores =
      specScores (jsGet (.obj (.cons "name" (.str "A")
        (.cons "pros" (.arr .nil)
          (.cons "cons" (.arr .nil)
            (.cons "scores" (.obj (.cons "cost" (.str "good")
              (.cons "drop" .null (.cons "speed" (.num 7) .nil)))) .nil)))))
        "scores") :=
  C7_scores_leniency.1
    (.obj (.cons "name" (.str "A")
      (.cons "pros" (.arr .nil)
        (.cons "cons" (.arr .nil)
          (.cons "scores" (.obj (.cons "cost" (.str "good")
            (.cons "drop" .null (.cons "speed" (.num 7) .nil)))) .nil)))))
    0 ⟨"A", [], [], [("cost", "good"), ("speed", "7")]⟩ rfl

theorem dropWhile_append_nil (p : Char → Bool) :
    ∀ l m : List Char, List.dropWhile p l = [] →
      List.dropWhile p (l ++ m) = List.dropWhile p m := by
  intro l
  induction l with
  | nil => intro m _; rfl
  | cons c t ih =>
    intro m h
    by_cases hc : p c
    · rw [List.cons_append, List.dropWhile_cons_of_pos hc]
      rw [List.dropWhile_cons_of_pos hc] at h
      exact ih m h
    · rw [List.dropWhile_cons_of_neg hc] at h
      cases h
theorem dropWhile_append_cons (p : Char → Bool) :
    ∀ l m c t, List.dropWhile p l = c :: t →
      List.dropWhile p (l ++ m) = c :: (t ++ m) := by
  intro l
  induction l with
  | nil => intro m c t h; cases h
  | cons x xs ih =>
    intro m c t h
    by_cases hx : p x
    · rw [List.cons_append, List.dropWhile_cons_of_pos hx]
      rw [List.dropWhile_cons_of_pos hx] at h
      exact ih m c t h
    · rw [List.dropWhile_cons_of_neg hx] at h
      cases h
      rw [List.cons_append, List.dropWhile_cons_of_neg hx]

theorem pfx_tickL_false {c : Char} (t : List Char) (hc : c ≠ tickChar) :
    pfx tickL (c :: t) = false := by
  show (tickChar = c && pfx [tickChar, tickChar] t) = false
  have : (tickChar = c : Bool) = false := by
    simpa [eq_comm] using hc
  rw [this, Bool.false_and]

theorem findClose_no_tick :
    ∀ l m : List Char, tickChar ∉ l →
      findClose (l ++ (tickL ++ m)) = some l := by
  intro l
  induction l with
  | nil =>
    intro m _
    show findClose (tickChar :: tickChar :: tickChar :: m) = some []
    unfold findClose
    rw [if_pos]
    rfl
  | cons c t ih =>
    intro m hmem
    have hc : c ≠ tickChar := fun h => hmem (h ▸ List.mem_cons_self c t)
    show findClose (c :: (t ++ (tickL ++ m))) = some (c :: t)
    unfold findClose
    rw [pfx_tickL_false _ hc]
    simp only [Bool.false_eq_true, if_false]
    rw [ih m (fun h => hmem (List.mem_cons_of_mem c h))]
    rfl

theorem takeToLastRBrace_none :
    ∀ l : List Char, '}' ∉ l → takeToLastRBrace l = none := by
  intro l
  induction l with
  | nil => intro _; rfl
  | cons c t ih =>
    intro hmem
    have hc : c ≠ '}' := fun h => hmem (h ▸ List.mem_cons_self c t)
    unfold takeToLastRBrace
    rw [ih (fun h => hmem (List.mem_cons_of_mem c h))]
    simp [hc]

theorem takeToLastRBrace_last :
    ∀ (m q : List Char), '}' ∉ q →
      takeToLastRBrace (m ++ '}' :: q) = some (m ++ ['}']) := by
  intro m
  induction m with
  | nil =>
    intro q hq
    show takeToLastRBrace ('}' :: q) = some ['}']
    unfold takeToLastRBrace
    rw [takeToLastRBrace_none q hq]
    simp
  | cons x xs ih =>
    intro q hq
    show takeToLastRBrace (x :: (xs ++ '}' :: q)) = some (x :: (xs ++ ['}']))
    unfold takeToLastRBrace
    rw [ih q hq]

theorem mem_of_mem_dropWhile (p : Char → Bool) :
    ∀ (l : List Char) (c : Char), c ∈ List.dropWhile p l → c ∈ l := by
  intro l
  induction l with
  | nil => intro c h; simp at h
  | cons x t ih =>
    intro c h
    by_cases hx : p x
    · rw [List.dropWhile_cons_of_pos hx] at h
      exact List.mem_cons_of_mem _ (ih c h)
    · rw [List.dropWhile_cons_of_neg hx] at h
      exact h

theorem pfx_json_extend (bd rest : List Char) (h : pfx jsonTagL bd = false) :
    pfx jsonTagL (bd ++ tickChar :: rest) = false := by
  match bd with
  | [] =>
    show pfx jsonTagL (tickChar :: rest) = false
    show (('j' = tickChar : Bool) && _) = false
    rw [show (('j' = tickChar : Bool)) = false by decide, Bool.false_and]
  | [x1] =>
    show (('j' = x1 : Bool) && (('s' = tickChar : Bool) && _)) = false
    rw [show (('s' = tickChar : Bool)) = false by decide, Bool.false_and,
      Bool.and_false]
  | [x1, x2] =>
    show (('j' = x1 : Bool) && (('s' = x2 : Bool) &&
      (('o' = tickChar : Bool) && _))) = false
    rw [show (('o' = tickChar : Bool)) = false by decide, Bool.false_and,
      Bool.and_false, Bool.and_false]
  | [x1, x2, x3] =>
    show (('j' = x1 : Bool) && (('s' = x2 : Bool) && (('o' = x3 : Bool) &&
      (('n' = tickChar : Bool) && _)))) = false
    rw [show (('n' = tickChar : Bool)) = false by decide, Bool.false_and,
      Bool.and_false, Bool.and_false, Bool.and_false]
  | x1 :: x2 :: x3 :: x4 :: bd2 =>
    show (('j' = x1 : Bool) && (('s' = x2 : Bool) && (('o' = x3 : Bool) &&
      (('n' = x4 : Bool) && true)))) = false
    have h2 : (('j' = x1 : Bool) && (('s' = x2 : Bool) && (('o' = x3 : Bool) &&
      (('n' = x4 : Bool) && true)))) = false := by
      have := h
      show _ = false
      simpa [pfx] using this
    exact h2

theorem fenceFrom_none :
    ∀ l : List Char, tickChar ∉ l → fenceFrom l = none := by
  intro l
  induction l with
  | nil => intro _; rfl
  | cons c t ih =>
    intro hmem
    have hc : c ≠ tickChar := fun h => hmem (h ▸ List.mem_cons_self c t)
    unfold fenceFrom
    rw [pfx_tickL_false _ hc]
    simp only [Bool.false_eq_true, if_false]
    exact ih (fun h => hmem (List.mem_cons_of_mem c h))

theorem fenceFrom_found :
    ∀ (l bd cd : List Char), tickChar ∉ l → tickChar ∉ bd →
      pfx jsonTagL bd = false →
      fenceFrom (l ++ (tickL ++ (bd ++ (tickL ++ cd)))) =
        some (List.dropWhile isJsWsChar bd) := by
  intro l
  induction l with
  | nil =>
    intro bd cd _ hbd hjson
    show fenceFrom (tickL ++ (bd ++ (tickL ++ cd))) = _
    show fenceFrom (tickChar :: tickChar :: tickChar :: (bd ++ (tickL ++ cd))) = _
    unfold fenceFrom
    rw [if_pos (by show (tickChar = tickChar && _) = true; simp [pfx])]
    have hdrop : (tickChar :: tickChar :: tickChar ::
        (bd ++ (tickL ++ cd))).drop 3 = bd ++ (tickL ++ cd) := rfl
    rw [hdrop]
    have hjson2 : pfx jsonTagL (bd ++ (tickL ++ cd)) = false := by
      have := pfx_json_extend bd (tickChar :: tickChar :: cd) hjson
      simpa [tickL] using this
    simp only [hjson2, Bool.false_eq_true, if_false]
    cases hw : List.dropWhile isJsWsChar bd with
    | nil =>
      rw [dropWhile_append_nil _ bd _ hw]
      have hnows : List.dropWhile isJsWsChar (tickL ++ cd) = tickL ++ cd := by
        apply List.dropWhile_cons_of_neg
        decide
      rw [hnows]
      have hfc := findClose_no_tick [] cd (by simp)
      simp only [List.nil_append] at hfc
      rw [hfc]
    | cons x t =>
      rw [dropWhile_append_cons _ bd _ x t hw]
      have hxt : tickChar ∉ x :: t := by
        intro hmem
        exact hbd (mem_of_mem_dropWhile _ bd tickChar (hw ▸ hmem))
      have hfc := findClose_no_tick (x :: t) cd hxt
      rw [show x :: (t ++ (tickL ++ cd)) = (x :: t) ++ (tickL ++ cd) from rfl,
        hfc]
  | cons c t ih =>
    intro bd cd hmem hbd hjson
    have hc : c ≠ tickChar := fun h => hmem (h ▸ List.mem_cons_self c t)
    show fenceFrom (c :: (t ++ (tickL ++ (bd ++ (tickL ++ cd))))) = _
    unfold fenceFrom
    rw [pfx_tickL_false _ hc]
    simp only [Bool.false_eq_true, if_false]
    exact ih bd cd (fun h => hmem (List.mem_cons_of_mem c h)) hbd hjson

theorem braceSpan_found :
    ∀ (pre m q : List Char), '{' ∉ pre → '}' ∉ q →
      braceSpan (pre ++ '{' :: (m ++ '}' :: q)) = some ('{' :: (m ++ ['}'])) := by
  intro pre
  induction pre with
  | nil =>
    intro m q _ hq
    show braceSpan ('{' :: (m ++ '}' :: q)) = _
    unfold braceSpan
    rw [if_pos rfl, takeToLastRBrace_last m q hq]
    rfl
  | cons c t ih =>
    intro m q hmem hq
    have hc : c ≠ '{' := fun h => hmem (h ▸ List.mem_cons_self c t)
    show braceSpan (c :: (t ++ '{' :: (m ++ '}' :: q))) = _
    unfold braceSpan
    rw [if_neg hc]
    exact ih m q (fun h => hmem (List.mem_cons_of_mem c h)) hq

theorem braceSpan_none :
    ∀ l : List Char, ('{' ∉ l ∨ '}' ∉ l) → braceSpan l = none := by
  intro l
  induction l with
  | nil => intro _; rfl
  | cons c t ih =>
    intro h
    unfold braceSpan
    by_cases hc : c = '{'
    · rcases h with h | h
      · exact absurd (hc ▸ List.mem_cons_self c t) h
      · rw [if_pos hc,
          takeToLastRBrace_none t (fun hm => h (List.mem_cons_of_mem c hm))]
        rfl
    · rw [if_neg hc]
      rcases h with h | h
      · exact ih (Or.inl (fun hm => h (List.mem_cons_of_mem c hm)))
      · exact ih (Or.inr (fun hm => h (List.mem_cons_of_mem c hm)))

theorem string_eq_of_data (s t : String) (h : s.data = t.data) : s = t := by
  cases s
  cases t
  exact congrArg String.mk h

/-- C6: extraction obeys the spec order — a fenced block (here: delimiters
not touching other backticks, interior not starting with the literal tag
`json`) yields the trimmed fence interior; with no backtick anywhere, a
`{...}` span yields the span from the first opening to the last closing
brace; with no backtick and no such span the trimmed whole string is used;
and the fenced example normalizes to exactly one option named `A` with
empty pros, cons and scores and no trade-offs. -/
theorem C6_extraction :
    (∀ a b c : String, tickChar ∉ a.data → tickChar ∉ b.data →
      pfx jsonTagL b.data = false →
      extractJson (a ++ "```" ++ b ++ "```" ++ c) = ⟨jsTrimL b.data⟩) ∧
    (∀ p m q : String, tickChar ∉ p.data → tickChar ∉ m.data →
      tickChar ∉ q.data → '{' ∉ p.data → '}' ∉ q.data →
      extractJson (p ++ "\x7b" ++ m ++ "\x7d" ++ q) =
        "\x7b" ++ m ++ "\x7d") ∧
    (∀ s : String, tickChar ∉ s.data → ('{' ∉ s.data ∨ '}' ∉ s.data) →
      extractJson s = ⟨jsTrimL s.data⟩) ∧
    normalizeGrokResponse
        "```json\n\x7b\"options\":[\x7b\"name\":\"A\",\"pros\":[],\"cons\":[],\"scores\":\x7b\x7d\x7d]\x7d\n```" =
      .ok ⟨[⟨"A", [], [], []⟩], []⟩ := by
  refine ⟨?_, ?_, ?_, ?_⟩
  · intro a b c ha hb hjson
    have hdata : (a ++ "```" ++ b ++ "```" ++ c).data =
        a.data ++ (tickL ++ (b.data ++ (tickL ++ c.data))) := by
      simp [String.data_append]
      rfl
    unfold extractJson
    rw [hdata, fenceFrom_found a.data b.data c.data ha hb hjson]
    show (⟨jsTrimL (List.dropWhile isJsWsChar b.data)⟩ : String) = _
    unfold jsTrimL
    rw [dropWhile_idem]
  · intro p m q hp hm hq hbp hbq
    have hdata : (p ++ "\x7b" ++ m ++ "\x7d" ++ q).data =
        p.data ++ '{' :: (m.data ++ '}' :: q.data) := by
      simp [String.data_append]
    unfold extractJson
    rw [hdata]
    have hnof : fenceFrom (p.data ++ '{' :: (m.data ++ '}' :: q.data)) = none := by
      apply fenceFrom_none
      intro hmem
      rcases List.mem_append.mp hmem with h | h
      · exact hp h
      · rcases List.mem_cons.mp h with h2 | h2
        · exact absurd h2.symm (by decide)
        · rcases List.mem_append.mp h2 with h3 | h3
          · exact hm h3
          · rcases List.mem_cons.mp h3 with h4 | h4
            · exact absurd h4.symm (by decide)
            · exact hq h4
    rw [hnof, braceSpan_found p.data m.data q.data hbp hbq]
    apply string_eq_of_data
    show '{' :: (m.data ++ ['}']) = _
    simp [String.data_append]
  · intro s hticks hbr
    unfold extractJson
    rw [fenceFrom_none s.data hticks, braceSpan_none s.data hbr]
  · rfl

/-- C6 witness: a concrete fenced raw text extracts to its trimmed
interior, and a concrete brace-bearing text extracts to its brace span. -/
theorem C6_extraction_witness :
    extractJson ("before " ++ "```" ++ " body " ++ "```" ++ " after") =
      ⟨jsTrimL " body ".data⟩ ∧
    extractJson ("see " ++ "\x7b" ++ "x" ++ "\x7d" ++ " end") =
      "\x7b" ++ "x" ++ "\x7d" :=
  ⟨C6_extraction.1 "before " " body " " after" (by decide) (by decide) (by decide),
   C6_extraction.2.1 "see " "x" " end" (by decide) (by decide) (by decide)
     (by decide) (by decide)⟩

theorem string_mk_data (s : String) : (⟨s.data⟩ : String) = s := rfl

theorem parse_ser_str :
    ∀ (cs rest : List Char),
      parseStrBody (escapeL cs ++ ('"' :: rest)) = some (cs, rest) := by
  intro cs
  induction cs with
  | nil =>
    intro rest
    show parseStrBody ('"' :: rest) = _
    unfold parseStrBody
    rw [if_pos rfl]
  | cons c t ih =>
    intro rest
    by_cases hc : (c = '"' || c = '\\' : Bool) = true
    · have hesc : escapeL (c :: t) = '\\' :: c :: escapeL t := by
        simp only [escapeL, hc, if_true]
        rfl
      have hune : unescape c = some c := by
        rcases Bool.or_eq_true_iff.mp hc with h | h
        · rw [show c = '"' from of_decide_eq_true h]
          decide
        · rw [show c = '\\' from of_decide_eq_true h]
          decide
      rw [hesc]
      show parseStrBody ('\\' :: (c :: (escapeL t ++ ('"' :: rest)))) = _
      unfold parseStrBody
      rw [if_neg (by decide), if_pos rfl]
      simp only [hune, ih rest]
      rfl
    · have hne : ¬ (c = '"' ∨ c = '\\') := by
        intro h
        apply hc
        rcases h with h | h <;> simp [h]
      push_neg at hne
      have hesc : escapeL (c :: t) = c :: escapeL t := by
        simp only [escapeL, hne.1, hne.2]
        rfl
      rw [hesc]
      show parseStrBody (c :: (escapeL t ++ ('"' :: rest))) = _
      unfold parseStrBody
      rw [if_neg hne.1, if_neg hne.2]
      simp only [ih rest]
      rfl

mutual
/-- Fuel needed by `parseVal` on the serialization of this value. -/
def needJ : Json → Nat
  | .null => 1
  | .bool _ => 1
  | .num _ => 1
  | .str _ => 1
  | .arr xs => needL xs + 1
  | .obj fs => needF fs + 1

/-- Fuel needed by `parseItems` on the serialization of this list. -/
def needL : JsonList → Nat
  | .nil => 1
  | .cons x t => needJ x + needL t + 1

/-- Fuel needed by `parseMembers` on the serialization of these fields. -/
def needF : JsonFields → Nat
  | .nil => 1
  | .cons _ v t => needJ v + needF t + 1
end

/-- Pairwise-distinct field keys. -/
def fieldsNodupP : JsonFields → Prop
  | .nil => True
  | .cons k _ t => fieldsHas t k = false ∧ fieldsNodupP t

mutual
/-- Serializable shapes produced by `resultToJson`: strings, arrays and
objects with recursively distinct keys. -/
def sobJ : Json → Prop
  | .str _ => True
  | .arr xs => sobL xs
  | .obj fs => fieldsNodupP fs ∧ sobF fs
  | _ => False

/-- All elements serializable. -/
def sobL : JsonList → Prop
  | .nil => True
  | .cons x t => sobJ x ∧ sobL t

/-- All field values serializable. -/
def sobF : JsonFields → Prop
  | .nil => True
  | .cons _ v t => sobJ v ∧ sobF t
end

/-- Concatenation of field lists. -/
def fieldsConcat (a : JsonFields) : JsonFields → JsonFields
  | .nil => a
  | .cons k v t => fieldsConcat (fieldsAppend a k v) t

theorem skipWs_cons (c : Char) (l : List Char) (h : isJsonWs c = false) :
    skipWs (c :: l) = c :: l := by
  unfold skipWs
  rw [List.dropWhile_cons_of_neg (by simp [h])]

theorem fieldsHas_append :
    ∀ (a : JsonFields) (k : String) (v : Json) (k2 : String),
      fieldsHas (fieldsAppend a k v) k2 = (fieldsHas a k2 || (k = k2 : Bool))
  | .nil, k, v, k2 => by simp [fieldsAppend, fieldsHas]
  | .cons a b t, k, v, k2 => by
    show ((a = k2 : Bool) || fieldsHas (fieldsAppend t k v) k2) = _
    rw [fieldsHas_append t k v k2]
    show _ = (((a = k2 : Bool) || fieldsHas t k2) || (k = k2 : Bool))
    rw [Bool.or_assoc]

theorem insertField_fresh (a : JsonFields) (k : String) (v : Json)
    (h : fieldsHas a k = false) : insertField a k v = fieldsAppend a k v := by
  unfold insertField
  rw [h]
  rfl

theorem serJson_cons :
    ∀ j : Json, sobJ j →
      ∃ c r0, serJson j = c :: r0 ∧ (c = '"' ∨ c = '[' ∨ c = '{') := by
  intro j hj
  cases j with
  | null => exact hj.elim
  | bool b => exact hj.elim
  | num n => exact hj.elim
  | str s => exact ⟨'"', escapeL s.data ++ ['"'], rfl, Or.inl rfl⟩
  | arr xs => exact ⟨'[', serItemsL xs ++ [']'], rfl, Or.inr (Or.inl rfl)⟩
  | obj fs => exact ⟨'{', serMembersL fs ++ ['}'], rfl, Or.inr (Or.inr rfl)⟩

/-- Plain concatenation of field lists (recursion on the left). -/
def fieldsCat : JsonFields → JsonFields → JsonFields
  | .nil, b => b
  | .cons k v t, b => .cons k v (fieldsCat t b)

theorem fieldsCat_nil : ∀ a : JsonFields, fieldsCat a .nil = a
  | .nil => rfl
  | .cons k v t => by
    show JsonFields.cons k v (fieldsCat t .nil) = _
    rw [fieldsCat_nil t]

theorem fieldsCat_append :
    ∀ (a : JsonFields) (k : String) (v : Json) (t : JsonFields),
      fieldsCat (fieldsAppend a k v) t = fieldsCat a (.cons k v t)
  | .nil, k, v, t => rfl
  | .cons a0 b0 t0, k, v, t => by
    show JsonFields.cons a0 b0 (fieldsCat (fieldsAppend t0 k v) t) = _
    rw [fieldsCat_append t0 k v t]
    rfl

theorem fieldsConcat_eq_cat :
    ∀ (fs a : JsonFields), fieldsConcat a fs = fieldsCat a fs
  | .nil, a => (fieldsCat_nil a).symm
  | .cons k v t, a => by
    show fieldsConcat (fieldsAppend a k v) t = _
    rw [fieldsConcat_eq_cat t (fieldsAppend a k v), fieldsCat_append]

theorem fieldsConcat_nil_left (fs : JsonFields) : fieldsConcat .nil fs = fs := by
  rw [fieldsConcat_eq_cat]
  rfl

mutual
theorem parse_ser_val :
    ∀ (j : Json), sobJ j → ∀ (fuel : Nat) (rest : List Char),
      needJ j ≤ fuel → parseVal fuel (serJson j ++ rest) = some (j, rest)
  | .null, hs, _, _, _ => hs.elim
  | .bool b, hs, _, _, _ => hs.elim
  | .num n, hs, _, _, _ => hs.elim
  | .str s, _, fuel, rest, hf => by
    cases fuel with
    | zero => simp [needJ] at hf
    | succ fu =>
      have hshape : serJson (.str s) ++ rest =
          '"' :: (escapeL s.data ++ ('"' :: rest)) := by
        show ('"' :: (escapeL s.data ++ ['"'])) ++ rest = _
        simp
      rw [hshape]
      unfold parseVal
      rw [skipWs_cons _ _ (by decide)]
      dsimp only
      rw [if_pos rfl, parse_ser_str]
  | .arr xs, hs, fuel, rest, hf => by
    cases fuel with
    | zero => simp [needJ] at hf
    | succ fu =>
      have hshape : serJson (.arr xs) ++ rest =
          '[' :: (serItemsL xs ++ (']' :: rest)) := by
        show ('[' :: (serItemsL xs ++ [']'])) ++ rest = _
        simp
      rw [hshape]
      unfold parseVal
      rw [skipWs_cons _ _ (by decide)]
      dsimp only
      rw [if_neg (by decide), if_pos rfl]
      cases xs with
      | nil =>
        show (if (skipWs (']' :: rest)).head? = some ']' then
            some (Json.arr .nil, (skipWs (']' :: rest)).tail)
          else match parseItems fu (skipWs (']' :: rest)) with
            | none => none
            | some (xs, r2) => some (.arr xs, r2)) = _
        rw [skipWs_cons _ _ (by decide)]
        rw [if_pos (show (']' :: rest).head? = some ']' from rfl)]
        rfl
      | cons x t =>
        have hx : sobJ x := hs.1
        obtain ⟨c0, r0, hser, hc0⟩ := serJson_cons x hx
        have hm : ∃ m, serItemsL (.cons x t) ++ (']' :: rest) = c0 :: m := by
          cases t with
          | nil =>
            refine ⟨r0 ++ (']' :: rest), ?_⟩
            show serJson x ++ (']' :: rest) = _
            rw [hser]
            simp
          | cons y t2 =>
            refine ⟨r0 ++ (',' :: serItemsL (.cons y t2)) ++ (']' :: rest), ?_⟩
            show (serJson x ++ ',' :: serItemsL (.cons y t2)) ++ (']' :: rest) = _
            rw [hser]
            simp
        obtain ⟨m, hmv⟩ := hm
        have hnws : isJsonWs c0 = false := by
          rcases hc0 with h | h | h <;> subst h <;> decide
        have hnbr : ¬ ((c0 :: m).head? = some ']') := by
          intro hcon
          simp at hcon
          rcases hc0 with h | h | h <;> subst h <;> cases hcon
        rw [hmv, skipWs_cons _ _ hnws, if_neg hnbr, ← hmv]
        rw [parse_ser_items (.cons x t) hs (by intro hcon; cases hcon) fu rest
          (by simp [needJ] at hf; omega)]
  | .obj fs, hs, fuel, rest, hf => by
    cases fuel with
    | zero => simp [needJ] at hf
    | succ fu =>
      have hshape : serJson (.obj fs) ++ rest =
          '{' :: (serMembersL fs ++ ('}' :: rest)) := by
        show ('{' :: (serMembersL fs ++ ['}'])) ++ rest = _
        simp
      rw [hshape]
      unfold parseVal
      rw [skipWs_cons _ _ (by decide)]
      dsimp only
      rw [if_neg (by decide), if_neg (by decide), if_pos rfl]
      cases fs with
      | nil =>
        show (if (skipWs ('}' :: rest)).head? = some '}' then
            some (Json.obj .nil, (skipWs ('}' :: rest)).tail)
          else match parseMembers fu .nil (skipWs ('}' :: rest)) with
            | none => none
            | some (fs2, r2) => some (.obj fs2, r2)) = _
        rw [skipWs_cons _ _ (by decide)]
        rw [if_pos (show ('}' :: rest).head? = some '}' from rfl)]
        rfl
      | cons k v t =>
        have hm : ∃ m, serMembersL (.cons k v t) ++ ('}' :: rest) = '"' :: m := by
          cases t with
          | nil =>
            refine ⟨(escapeL k.data ++ ['"']) ++ (':' :: serJson v) ++ ('}' :: rest), ?_⟩
            show (serStrL k.data ++ ':' :: serJson v) ++ ('}' :: rest) = _
            show (('"' :: (escapeL k.data ++ ['"'])) ++ ':' :: serJson v) ++ ('}' :: rest) = _
            simp
          | cons k2 v2 t2 =>
            refine ⟨(escapeL k.data ++ ['"']) ++ (':' :: serJson v ++
              ',' :: serMembersL (.cons k2 v2 t2)) ++ ('}' :: rest), ?_⟩
            show (serStrL k.data ++ ':' :: serJson v ++
              ',' :: serMembersL (.cons k2 v2 t2)) ++ ('}' :: rest) = _
            show (('"' :: (escapeL k.data ++ ['"'])) ++ ':' :: serJson v ++
              ',' :: serMembersL (.cons k2 v2 t2)) ++ ('}' :: rest) = _
            simp
        obtain ⟨m, hmv⟩ := hm
        have hnbr : ¬ (('"' :: m).head? = some '}') := by
          intro hcon
          simp at hcon
        rw [hmv, skipWs_cons _ _ (by decide), if_neg hnbr, ← hmv]
        rw [parse_ser_members (.cons k v t) hs.2 hs.1 (by intro hcon; cases hcon)
          fu rest .nil (by simp [needJ] at hf; omega) (fun k2 _ => rfl)]
        rw [fieldsConcat_nil_left]

theorem parse_ser_items :
    ∀ (xs : JsonList), sobL xs → xs ≠ .nil → ∀ (fuel : Nat) (rest : List Char),
      needL xs ≤ fuel →
      parseItems fuel (serItemsL xs ++ (']' :: rest)) = some (xs, rest)
  | .nil, _, hne, _, _, _ => absurd rfl hne
  | .cons x t, hs, _, fuel, rest, hf => by
    obtain ⟨hx, ht⟩ := hs
    cases fuel with
    | zero => simp [needL] at hf
    | succ fu =>
      unfold parseItems
      cases t with
      | nil =>
        have hsh : serItemsL (.cons x .nil) ++ (']' :: rest) =
            serJson x ++ (']' :: rest) := rfl
        rw [hsh, parse_ser_val x hx fu (']' :: rest)
          (by simp [needL] at hf; omega)]
        dsimp only
        rw [skipWs_cons _ _ (by decide)]
        dsimp only
        rw [if_neg (by decide), if_pos rfl]
      | cons y t2 =>
        have hsh : serItemsL (.cons x (.cons y t2)) ++ (']' :: rest) =
            serJson x ++ (',' :: (serItemsL (.cons y t2) ++ (']' :: rest))) := by
          show (serJson x ++ ',' :: serItemsL (.cons y t2)) ++ (']' :: rest) = _
          simp
        rw [hsh, parse_ser_val x hx fu _ (by simp [needL] at hf; omega)]
        dsimp only
        rw [skipWs_cons _ _ (by decide)]
        dsimp only
        rw [if_pos rfl]
        rw [parse_ser_items (.cons y t2) ht (by intro hcon; cases hcon) fu rest
          (by simp [needL] at hf ⊢; omega)]

theorem parse_ser_members :
    ∀ (fs : JsonFields), sobF fs → fieldsNodupP fs → fs ≠ .nil →
      ∀ (fuel : Nat) (rest : List Char) (acc : JsonFields),
        needF fs ≤ fuel →
        (∀ k2, fieldsHas fs k2 = true → fieldsHas acc k2 = false) →
        parseMembers fuel acc (serMembersL fs ++ ('}' :: rest)) =
          some (fieldsConcat acc fs, rest)
  | .nil, _, _, hne, _, _, _, _, _ => absurd rfl hne
  | .cons k v t, hs, hnd, _, fuel, rest, acc, hf, hfresh => by
    obtain ⟨hv, ht⟩ := hs
    obtain ⟨hkt, hndt⟩ := hnd
    have hacck : fieldsHas acc k = false := by
      apply hfresh
      show ((k = k : Bool) || fieldsHas t k) = true
      simp
    cases fuel with
    | zero => simp [needF] at hf
    | succ fu =>
      unfold parseMembers
      cases t with
      | nil =>
        have hsh : serMembersL (.cons k v .nil) ++ ('}' :: rest) =
            '"' :: (escapeL k.data ++ ('"' :: (':' ::
              (serJson v ++ ('}' :: rest))))) := by
          show (serStrL k.data ++ ':' :: serJson v) ++ ('}' :: rest) = _
          show (('"' :: (escapeL k.data ++ ['"'])) ++ ':' :: serJson v) ++
            ('}' :: rest) = _
          simp
        rw [hsh, skipWs_cons _ _ (by decide)]
        dsimp only
        rw [if_pos rfl, parse_ser_str]
        dsimp only
        rw [skipWs_cons _ _ (by decide)]
        dsimp only
        rw [if_pos rfl]
        rw [parse_ser_val v hv fu _ (by simp [needF] at hf; omega)]
        dsimp only
        rw [skipWs_cons _ _ (by decide)]
        dsimp only
        rw [if_neg (by decide), if_pos rfl]
        show some (insertField acc k v, rest) = _
        rw [insertField_fresh acc k v hacck]
        rfl
      | cons k2 v2 t2 =>
        have hsh : serMembersL (.cons k v (.cons k2 v2 t2)) ++ ('}' :: rest) =
            '"' :: (escapeL k.data ++ ('"' :: (':' :: (serJson v ++
              (',' :: (serMembersL (.cons k2 v2 t2) ++ ('}' :: rest))))))) := by
          show (serStrL k.data ++ ':' :: serJson v ++
            ',' :: serMembersL (.cons k2 v2 t2)) ++ ('}' :: rest) = _
          show (('"' :: (escapeL k.data ++ ['"'])) ++ ':' :: serJson v ++
            ',' :: serMembersL (.cons k2 v2 t2)) ++ ('}' :: rest) = _
          simp
        rw [hsh, skipWs_cons _ _ (by decide)]
        dsimp only
        rw [if_pos rfl, parse_ser_str]
        dsimp only
        rw [skipWs_cons _ _ (by decide)]
        dsimp only
        rw [if_pos rfl]
        rw [parse_ser_val v hv fu _ (by simp [needF] at hf; omega)]
        dsimp only
        rw [skipWs_cons _ _ (by decide)]
        dsimp only
        rw [if_pos rfl]
        show parseMembers fu (insertField acc k v) _ = _
        rw [insertField_fresh acc k v hacck]
        rw [parse_ser_members (.cons k2 v2 t2) ht hndt
          (by intro hcon; cases hcon) fu rest (fieldsAppend acc k v)
          (by simp [needF] at hf ⊢; omega) ?fresh]
        case fresh =>
          intro k3 hk3
          rw [fieldsHas_append]
          have hacc3 : fieldsHas acc k3 = false := by
            apply hfresh
            show ((k = k3 : Bool) || fieldsHas (.cons k2 v2 t2) k3) = true
            rw [hk3]
            simp
          rw [hacc3]
          have hkk3 : (k = k3 : Bool) = false := by
            by_contra hcon
            have : k = k3 := by
              cases hx : (k = k3 : Bool)
              · exact absurd hx hcon
              · exact of_decide_eq_true hx
            subst this
            rw [hk3] at hkt
            cases hkt
          rw [hkk3]
          rfl
        rfl
end

mutual
theorem needJ_le : ∀ j : Json, needJ j ≤ 2 * (serJson j).length + 1
  | .null => by show 1 ≤ 2 * ("null".data).length + 1; omega
  | .bool b => by
    cases b
    · show 1 ≤ 2 * ((cond false "true" "false").data).length + 1; omega
    · show 1 ≤ 2 * ((cond true "true" "false").data).length + 1; omega
  | .num n => by show 1 ≤ 2 * ((toString n).data).length + 1; omega
  | .str s => by simp [needJ, serJson]
  | .arr xs => by
    have h := needL_le xs
    show needL xs + 1 ≤ 2 * ('[' :: (serItemsL xs ++ [']'])).length + 1
    simp only [List.length_cons, List.length_append, List.length_singleton]
    omega
  | .obj fs => by
    have h := needF_le fs
    show needF fs + 1 ≤ 2 * ('{' :: (serMembersL fs ++ ['}'])).length + 1
    simp only [List.length_cons, List.length_append, List.length_singleton]
    omega

theorem needL_le : ∀ xs : JsonList, needL xs ≤ 2 * (serItemsL xs).length + 3
  | .nil => by simp [needL, serItemsL]
  | .cons x t => by
    have h1 := needJ_le x
    cases t with
    | nil =>
      show needJ x + needL .nil + 1 ≤ 2 * (serJson x).length + 3
      simp only [needL] at *
      omega
    | cons y t2 =>
      have h2 := needL_le (.cons y t2)
      show needJ x + needL (.cons y t2) + 1 ≤
        2 * (serJson x ++ ',' :: serItemsL (.cons y t2)).length + 3
      simp only [List.length_append, List.length_cons]
      omega

theorem needF_le : ∀ fs : JsonFields, needF fs ≤ 2 * (serMembersL fs).length + 3
  | .nil => by simp [needF, serMembersL]
  | .cons k v t => by
    have h1 := needJ_le v
    cases t with
    | nil =>
      show needJ v + needF .nil + 1 ≤
        2 * (serStrL k.data ++ ':' :: serJson v).length + 3
      simp only [needF, List.length_append, List.length_cons]
      omega
    | cons k2 v2 t2 =>
      have h2 := needF_le (.cons k2 v2 t2)
      show needJ v + needF (.cons k2 v2 t2) + 1 ≤
        2 * (serStrL k.data ++ ':' :: serJson v ++
          ',' :: serMembersL (.cons k2 v2 t2)).length + 3
      simp only [List.length_append, List.length_cons]
      omega
end

theorem parseJson_ser (j : Json) (h : sobJ j) : parseJson ⟨serJson j⟩ = some j := by
  unfold parseJson
  show (match parseVal (2 * (serJson j).length + 2) (serJson j) with
    | some (v, r) => if (skipWs r).isEmpty then some v else none
    | none => none) = some j
  have hfe : needJ j ≤ 2 * (serJson j).length + 2 :=
    le_trans (needJ_le j) (by omega)
  have hv := parse_ser_val j h (2 * (serJson j).length + 2) [] hfe
  rw [List.append_nil] at hv
  rw [hv]
  rfl

theorem strFilter_strJsonList :
    ∀ ps : List String, ps.all trimmedNonEmptyB = true →
      strFilter (strJsonList ps) = ps := by
  intro ps
  induction ps with
  | nil => intro _; rfl
  | cons p t ih =>
    intro h
    simp only [List.all_cons, Bool.and_eq_true] at h
    obtain ⟨hp, ht⟩ := h
    have hp2 : jsTrimL p.data = p.data ∧ p.data ≠ [] := by
      unfold trimmedNonEmptyB at hp
      simp only [Bool.and_eq_true, decide_eq_true_eq, Bool.not_eq_true',
        List.isEmpty_eq_false] at hp
      exact hp
    show strFilter (.cons (.str p) (strJsonList t)) = p :: t
    unfold strFilter
    rw [hp2.1, if_neg hp2.2, ih ht]

theorem scoreFields_foldl :
    ∀ (sc : List (String × String)) (acc : List (String × String)),
      (fieldsList (scoreFields sc)).foldl scoresStep acc = acc ++ sc := by
  intro sc
  induction sc with
  | nil => intro acc; simp [scoreFields, fieldsList]
  | cons kv t ih =>
    intro acc
    rcases kv with ⟨k, v⟩
    show ((k, Json.str v) :: fieldsList (scoreFields t)).foldl scoresStep acc = _
    rw [List.foldl_cons]
    show (fieldsList (scoreFields t)).foldl scoresStep (acc ++ [(k, v)]) = _
    rw [ih]
    simp

theorem fieldsGet_cons_ne (k : String) (v : Json) (t : JsonFields)
    (key : String) (h : ¬ k = key) :
    fieldsGet (.cons k v t) key = fieldsGet t key := by
  show (if k = key then some v else fieldsGet t key) = fieldsGet t key
  rw [if_neg h]

theorem fieldsGet_cons_eq (k : String) (v : Json) (t : JsonFields) :
    fieldsGet (.cons k v t) k = some v := by
  show (if k = k then some v else fieldsGet t k) = some v
  rw [if_pos rfl]

theorem scoresOf_optionToJson (o : OptionAnalysis) :
    scoresOf (optionToJson o) = o.scores := by
  unfold scoresOf
  have hget : jsGet (optionToJson o) "scores" =
      some (.obj (scoreFields o.scores)) := by
    show fieldsGet _ "scores" = _
    rw [fieldsGet_cons_ne _ _ _ _ (by decide), fieldsGet_cons_ne _ _ _ _ (by decide),
      fieldsGet_cons_ne _ _ _ _ (by decide), fieldsGet_cons_eq]
  rw [hget]
  show (if truthyObject (.obj (scoreFields o.scores)) = true then
    (jsEntries (.obj (scoreFields o.scores))).foldl scoresStep [] else []) = _
  rw [if_pos (show truthyObject (.obj (scoreFields o.scores)) = true from rfl)]
  show (fieldsList (scoreFields o.scores)).foldl scoresStep [] = _
  rw [scoreFields_foldl]
  rfl

theorem validateOption_optionToJson (o : OptionAnalysis) (i : Nat)
    (h : wfOptionB o = true) : validateOption (optionToJson o) i = .ok o := by
  unfold wfOptionB at h
  simp only [Bool.and_eq_true] at h
  obtain ⟨⟨⟨hname, hpros⟩, hcons⟩, _⟩ := h
  have hn : jsTrimL o.name.data = o.name.data ∧ o.name.data ≠ [] := by
    unfold trimmedNonEmptyB at hname
    simp only [Bool.and_eq_true, decide_eq_true_eq, Bool.not_eq_true',
      List.isEmpty_eq_false] at hname
    exact hname
  unfold validateOption
  have hguard : ¬ (!truthyObject (optionToJson o)) = true := by
    show ¬ (!(true : Bool)) = true
    decide
  rw [if_neg hguard]
  have hgn : jsGet (optionToJson o) "name" = some (.str o.name) := by
    show fieldsGet _ "name" = _
    rw [fieldsGet_cons_eq]
  rw [hgn]
  dsimp only
  rw [hn.1, if_neg hn.2]
  have hgp : jsGet (optionToJson o) "pros" = some (.arr (strJsonList o.pros)) := by
    show fieldsGet _ "pros" = _
    rw [fieldsGet_cons_ne _ _ _ _ (by decide), fieldsGet_cons_eq]
  rw [hgp]
  dsimp only
  have hgc : jsGet (optionToJson o) "cons" = some (.arr (strJsonList o.cons)) := by
    show fieldsGet _ "cons" = _
    rw [fieldsGet_cons_ne _ _ _ _ (by decide),
      fieldsGet_cons_ne _ _ _ _ (by decide), fieldsGet_cons_eq]
  rw [hgc]
  dsimp only
  rw [strFilter_strJsonList o.pros hpros, strFilter_strJsonList o.cons hcons,
    scoresOf_optionToJson]
  show (Except.ok ⟨⟨jsTrimL o.name.data⟩, o.pros, o.cons, o.scores⟩ :
    Except String OptionAnalysis) = Except.ok o
  rw [hn.1]

theorem validateOptions_optionsToJson :
    ∀ (opts : List OptionAnalysis) (i : Nat), opts.all wfOptionB = true →
      validateOptions i (optionsToJson opts) = .ok opts := by
  intro opts
  induction opts with
  | nil => intro i _; rfl
  | cons o t ih =>
    intro i h
    simp only [List.all_cons, Bool.and_eq_true] at h
    show validateOptions i (.cons (optionToJson o) (optionsToJson t)) = _
    unfold validateOptions
    rw [validateOption_optionToJson o i h.1, ih (i + 1) h.2]

theorem validateTradeOff_tradeOffToJson (t : TradeOff)
    (h : wfTradeOffB t = true) : validateTradeOff (tradeOffToJson t) = some t := by
  unfold wfTradeOffB at h
  simp only [Bool.and_eq_true] at h
  have hs : jsTrimL t.scenario.data = t.scenario.data ∧ t.scenario.data ≠ [] := by
    have := h.1
    unfold trimmedNonEmptyB at this
    simp only [Bool.and_eq_true, decide_eq_true_eq, Bool.not_eq_true',
      List.isEmpty_eq_false] at this
    exact this
  have hr : jsTrimL t.recommendation.data = t.recommendation.data ∧
      t.recommendation.data ≠ [] := by
    have := h.2
    unfold trimmedNonEmptyB at this
    simp only [Bool.and_eq_true, decide_eq_true_eq, Bool.not_eq_true',
      List.isEmpty_eq_false] at this
    exact this
  unfold validateTradeOff
  have hguard : ¬ (!truthyObject (tradeOffToJson t)) = true := by
    show ¬ (!(true : Bool)) = true
    decide
  rw [if_neg hguard]
  have hgs : jsGet (tradeOffToJson t) "scenario" = some (.str t.scenario) := by
    show fieldsGet _ "scenario" = _
    rw [fieldsGet_cons_eq]
  rw [hgs]
  dsimp only
  rw [hs.1, if_neg hs.2]
  have hgr : jsGet (tradeOffToJson t) "recommendation" =
      some (.str t.recommendation) := by
    show fieldsGet _ "recommendation" = _
    rw [fieldsGet_cons_ne _ _ _ _ (by decide), fieldsGet_cons_eq]
  rw [hgr]
  dsimp only
  rw [hr.1, if_neg hr.2]
  show (some ⟨⟨jsTrimL t.scenario.data⟩, ⟨jsTrimL t.recommendation.data⟩⟩ :
    Option TradeOff) = some t
  rw [hs.1, hr.1]

theorem collectTradeOffs_tradeOffsToJson :
    ∀ tos : List TradeOff, tos.all wfTradeOffB = true →
      collectTradeOffs (tradeOffsToJson tos) = tos := by
  intro tos
  induction tos with
  | nil => intro _; rfl
  | cons t rest ih =>
    intro h
    simp only [List.all_cons, Bool.and_eq_true] at h
    show collectTradeOffs (.cons (tradeOffToJson t) (tradeOffsToJson rest)) = _
    unfold collectTradeOffs
    rw [validateTradeOff_tradeOffToJson t h.1, ih h.2]

theorem sobL_strJsonList : ∀ ps : List String, sobL (strJsonList ps)
  | [] => trivial
  | _ :: t => ⟨trivial, sobL_strJsonList t⟩

theorem sobF_scoreFields : ∀ sc : List (String × String), sobF (scoreFields sc)
  | [] => trivial
  | (_, _) :: t => ⟨trivial, sobF_scoreFields t⟩

theorem fieldsHas_scoreFields :
    ∀ (sc : List (String × String)) (key : String),
      fieldsHas (scoreFields sc) key = sc.any (fun kv => (kv.1 = key : Bool))
  | [], _ => rfl
  | (k, v) :: t, key => by
    show ((k = key : Bool) || fieldsHas (scoreFields t) key) = _
    rw [fieldsHas_scoreFields t key]
    rfl

theorem fieldsNodup_scoreFields :
    ∀ sc : List (String × String), nodupKeysB sc = true →
      fieldsNodupP (scoreFields sc)
  | [], _ => trivial
  | (k, v) :: t, h => by
    unfold nodupKeysB at h
    simp only [Bool.and_eq_true, Bool.not_eq_true'] at h
    refine ⟨?_, fieldsNodup_scoreFields t h.2⟩
    rw [fieldsHas_scoreFields t k]
    exact h.1

theorem sob_optionToJson (o : OptionAnalysis) (h : wfOptionB o = true) :
    sobJ (optionToJson o) := by
  unfold wfOptionB at h
  simp only [Bool.and_eq_true] at h
  refine ⟨?_, ?_⟩
  · refine ⟨?_, ?_, ?_, rfl, trivial⟩
    · show (("pros" = "name" : Bool) || (("cons" = "name" : Bool) ||
        (("scores" = "name" : Bool) || false))) = false
      decide
    · show (("cons" = "pros" : Bool) || (("scores" = "pros" : Bool) || false)) = false
      decide
    · show (("scores" = "cons" : Bool) || false) = false
      decide
  · exact ⟨trivial, sobL_strJsonList o.pros, sobL_strJsonList o.cons,
      ⟨fieldsNodup_scoreFields o.scores h.2, sobF_scoreFields o.scores⟩, trivial⟩

theorem sobL_optionsToJson :
    ∀ opts : List OptionAnalysis, opts.all wfOptionB = true →
      sobL (optionsToJson opts)
  | [], _ => trivial
  | o :: t, h => by
    simp only [List.all_cons, Bool.and_eq_true] at h
    exact ⟨sob_optionToJson o h.1, sobL_optionsToJson t h.2⟩

theorem sob_tradeOffToJson (t : TradeOff) : sobJ (tradeOffToJson t) := by
  refine ⟨⟨?_, rfl, trivial⟩, trivial, trivial, trivial⟩
  show (("recommendation" = "scenario" : Bool) || false) = false
  decide

theorem sobL_tradeOffsToJson :
    ∀ tos : List TradeOff, sobL (tradeOffsToJson tos)
  | [] => trivial
  | t :: rest => ⟨sob_tradeOffToJson t, sobL_tradeOffsToJson rest⟩

theorem sob_resultToJson (r : NormalizedComparisonResult)
    (h : wellFormedB r = true) : sobJ (resultToJson r) := by
  unfold wellFormedB at h
  simp only [Bool.and_eq_true] at h
  refine ⟨⟨?_, rfl, trivial⟩, ?_, ?_, trivial⟩
  · show (("tradeOffs" = "options" : Bool) || false) = false
    decide
  · exact sobL_optionsToJson r.options h.1.2
  · exact sobL_tradeOffsToJson r.tradeOffs

theorem extract_serialized (r : NormalizedComparisonResult)
    (htick : tickChar ∉ (serializeResult r).data) :
    extractJson (serializeResult r) = serializeResult r := by
  unfold extractJson
  rw [fenceFrom_none _ htick]
  have hdata : (serializeResult r).data =
      '{' :: (serMembersL (.cons "options" (.arr (optionsToJson r.options))
        (.cons "tradeOffs" (.arr (tradeOffsToJson r.tradeOffs)) .nil)) ++ ['}']) :=
    rfl
  rw [hdata]
  unfold braceSpan
  rw [if_pos rfl]
  have hlast := takeToLastRBrace_last
    (serMembersL (.cons "options" (.arr (optionsToJson r.options))
      (.cons "tradeOffs" (.arr (tradeOffsToJson r.tradeOffs)) .nil))) [] (by simp)
  simp only [List.append_nil] at hlast
  rw [hlast]
  show (⟨'{' :: (serMembersL _ ++ ['}'])⟩ : String) = serializeResult r
  rw [← hdata]

/-- C10 (amended): serializing a well-formed normalized result to the
documented JSON schema and normalizing that text again yields an equal
result, provided the serialized text contains no backtick character
(otherwise the markdown-fence extraction of the normalizer can fire on the
serialized text and break the round-trip, see the counterexample). -/
theorem C10_serialization_roundtrip :
    ∀ r : NormalizedComparisonResult, wellFormedB r = true →
      tickChar ∉ (serializeResult r).data →
      normalizeGrokResponse (serializeResult r) = .ok r := by
  intro r hwf htick
  have hw := hwf
  unfold wellFormedB at hw
  simp only [Bool.and_eq_true] at hw
  obtain ⟨⟨hne, hopts⟩, htos⟩ := hw
  unfold normalizeGrokResponse
  have hnemp : ¬ serializeResult r = "" := by
    intro hcon
    have hd := congrArg String.data hcon
    have hd2 : (serializeResult r).data =
        '{' :: (serMembersL (.cons "options" (.arr (optionsToJson r.options))
          (.cons "tradeOffs" (.arr (tradeOffsToJson r.tradeOffs)) .nil)) ++ ['}']) :=
      rfl
    rw [hd2] at hd
    simp at hd
  rw [if_neg hnemp, extract_serialized r htick]
  rw [show serializeResult r = (⟨serJson (resultToJson r)⟩ : String) from rfl,
    parseJson_ser (resultToJson r) (sob_resultToJson r hwf)]
  dsimp only
  have hguard : ¬ (!truthyObject (resultToJson r)) = true := by
    show ¬ (!(true : Bool)) = true
    decide
  rw [if_neg hguard]
  have hgopts : jsGet (resultToJson r) "options" =
      some (.arr (optionsToJson r.options)) := by
    show fieldsGet _ "options" = _
    rw [fieldsGet_cons_eq]
  rw [hgopts]
  dsimp only
  have hnil : JsonList.isNil (optionsToJson r.options) = false := by
    cases hc : r.options with
    | nil =>
      rw [hc] at hne
      simp at hne
    | cons o t => rfl
  rw [hnil]
  simp only [Bool.false_eq_true, if_false]
  rw [validateOptions_optionsToJson r.options 0 hopts]
  dsimp only
  have hgtos : jsGet (resultToJson r) "tradeOffs" =
      some (.arr (tradeOffsToJson r.tradeOffs)) := by
    show fieldsGet _ "tradeOffs" = _
    rw [fieldsGet_cons_ne _ _ _ _ (by decide), fieldsGet_cons_eq]
  rw [hgtos]
  dsimp only
  rw [collectTradeOffs_tradeOffsToJson r.tradeOffs htos]

/-- C10 counterexample: a well-formed result whose option name consists of
six backticks serializes to text on which the markdown-fence extraction
fires, so normalizing the serialized form fails instead of returning the
original result. -/
theorem C10_roundtrip_counterexample :
    wellFormedB ⟨[⟨"``````", [], [], []⟩], []⟩ = true ∧
    normalizeGrokResponse (serializeResult ⟨[⟨"``````", [], [], []⟩], []⟩) =
      .error "Failed to parse JSON response" := by
  constructor
  · decide
  · rfl

/-- C10 witness: the round-trip holds on a concrete two-option result with
scores and a trade-off. -/
theorem C10_serialization_roundtrip_witness :
    normalizeGrokResponse (serializeResult
      ⟨[⟨"A", ["p1"], ["c1"], [("cost", "good"), ("speed", "ok")]⟩,
        ⟨"B", [], [], []⟩],
       [⟨"when x", "use A"⟩]⟩) =
      .ok ⟨[⟨"A", ["p1"], ["c1"], [("cost", "good"), ("speed", "ok")]⟩,
        ⟨"B", [], [], []⟩],
       [⟨"when x", "use A"⟩]⟩ :=
  C10_serialization_roundtrip
    ⟨[⟨"A", ["p1"], ["c1"], [("cost", "good"), ("speed", "ok")]⟩,
      ⟨"B", [], [], []⟩],
     [⟨"when x", "use A"⟩]⟩ (by decide) (by decide)
